import Mathlib

/-!
# Closest pair of points: brute force and divide and conquer

A shallow embedding of `par_mais_proximo.c`.

* In `dist`, `closestPairBruteForce`, `stripClosest`, `closestUtil` and `closest`,
  `double` values are modelled as exact real numbers (`ℝ`), `sqrt` as `Real.sqrt`
  and `fabs` as the absolute value.
* `distDouble`, `closestPairBruteForceDouble`, `stripClosestDouble`,
  `closestUtilDouble` and `closestDouble` are the same functions in IEEE 754 binary64
  arithmetic: every operation is rounded to nearest, ties to even, a result of size
  `2^1024` or more is `+∞`, and a result too small for the subnormal range is 0.
  What is said about the values that `dist` computes is said of these.
* A C array handed over together with its length `n` is a `List Point` together
  with `n : ℕ`; the functions look at the first `n` entries only.
* The loops `for i ... for j = i+1 ...` are structural recursions over the list:
  the head is `points[i]`, the tail holds `points[i+1 ..]`.
* The library routine `qsort` is a parameter of `closest`; `stableQsort` is one
  conforming implementation (a stable insertion sort).
* The buffers `pointsYL` and `pointsYR` are allocated with room for `mid` and
  `n - mid` points.  A write past the end of `pointsYR` is undefined behaviour in
  C; `closestUtil` then has no result (`none`).
* `stripLoop`, `closestUtilTraced` and `baseCaseSizes` spell out the strip loop with
  its state, the calls of `closestPairBruteForce`, and the sizes of the call tree.
-/

noncomputable section

namespace ClosestPair

/-- The record `Point` of the program: a pair of coordinates. -/
structure Point where
  x : ℝ
  y : ℝ

instance : Inhabited Point := ⟨⟨0, 0⟩⟩

/-- The constant `DBL_MAX` of `float.h`: the largest finite `double`,
`(2 - 2^(-52)) * 2^1023`. -/
def DBL_MAX : ℝ := 2 ^ 1024 - 2 ^ 971

/-- Function `dist`: the Euclidean distance of two points. -/
def dist (p1 p2 : Point) : ℝ :=
  Real.sqrt ((p1.x - p2.x) * (p1.x - p2.x) + (p1.y - p2.y) * (p1.y - p2.y))

/-- Inner loop of `closestPairBruteForce`: `p` is `points[i]`, the list holds
`points[i+1 .. n)`, `min` is the running minimum. -/
def bruteInner (p : Point) : List Point → ℝ → ℝ
  | [], min => min
  | q :: rest, min => bruteInner p rest (if dist p q < min then dist p q else min)

/-- Outer loop of `closestPairBruteForce` over `points[i .. n)`.  For the last
point the inner loop is empty, which is the bound `i < n - 1` of the source. -/
def bruteOuter : List Point → ℝ → ℝ
  | [], min => min
  | p :: rest, min => bruteOuter rest (bruteInner p rest min)

/-- Function `closestPairBruteForce(points, n)`. -/
def closestPairBruteForce (points : List Point) (n : ℕ) : ℝ :=
  bruteOuter (points.take n) DBL_MAX

/-- Comparator `compareX`: `(p1.x > p2.x) - (p1.x < p2.x)`. -/
def compareX (p1 p2 : Point) : ℤ :=
  (if p1.x > p2.x then 1 else 0) - (if p1.x < p2.x then 1 else 0)

/-- Comparator `compareY`: `(p1.y > p2.y) - (p1.y < p2.y)`. -/
def compareY (p1 p2 : Point) : ℤ :=
  (if p1.y > p2.y then 1 else 0) - (if p1.y < p2.y then 1 else 0)

/-- Inner loop of `stripClosest`: `p` is `strip[i]`, the list holds
`strip[i+1 .. size)`; the loop stops at the first `q` whose y-gap to `p` is not
below the running minimum. -/
def stripInner (p : Point) : List Point → ℝ → ℝ
  | [], min => min
  | q :: rest, min =>
    if q.y - p.y < min then
      stripInner p rest (if dist p q < min then dist p q else min)
    else min

/-- Outer loop of `stripClosest` over `strip[i .. size)`. -/
def stripOuter : List Point → ℝ → ℝ
  | [], min => min
  | p :: rest, min => stripOuter rest (stripInner p rest min)

/-- Function `stripClosest(strip, size, d)`. -/
def stripClosest (strip : List Point) (size : ℕ) (d : ℝ) : ℝ :=
  stripOuter (strip.take size) d

/-- The test `isLeft` of the partition loop of `closestUtil`. -/
def isLeft (midPoint p : Point) : Prop :=
  p.x < midPoint.x ∨ (p.x = midPoint.x ∧ p.y < midPoint.y)

instance (midPoint p : Point) : Decidable (isLeft midPoint p) := by
  unfold isLeft
  infer_instance

/-- The partition loop of `closestUtil` over the remaining entries of `pointsY`.
The state is the pair of the entries written so far to `pointsYL` and to
`pointsYR`; `li` and `ri` are the lengths of the two lists. -/
def partitionY (midPoint : Point) (mid : ℕ) :
    List Point → List Point × List Point → List Point × List Point
  | [], acc => acc
  | p :: rest, acc =>
    if isLeft midPoint p ∧ acc.1.length < mid then
      partitionY midPoint mid rest (acc.1 ++ [p], acc.2)
    else
      partitionY midPoint mid rest (acc.1, acc.2 ++ [p])

/-- The loop of `closestUtil` that builds the strip: the entries of `pointsY`
with `fabs(pointsY[i].x - midPoint.x) < d`, in order. -/
def buildStrip (midPoint : Point) (d : ℝ) (pointsY : List Point) : List Point :=
  pointsY.filter (fun p => decide (|p.x - midPoint.x| < d))

/-- Function `closestUtil(pointsX, pointsY, n)`.  `pointsX + mid` is
`pointsX.drop mid`.  The result is `none` when the partition loop writes past
the end of `pointsYR` (more than `n - mid` entries, which is the same as fewer
than `mid` entries in `pointsYL`), here or in a recursive call. -/
def closestUtil (pointsX pointsY : List Point) (n : ℕ) : Option ℝ :=
  if _h : n ≤ 3 then some (closestPairBruteForce pointsX n)
  else
    let mid := n / 2
    let midPoint := pointsX.getD mid default
    let parts := partitionY midPoint mid (pointsY.take n) ([], [])
    if n - mid < parts.2.length then none
    else
      match closestUtil pointsX parts.1 mid,
          closestUtil (pointsX.drop mid) parts.2 (n - mid) with
      | some dl, some dr =>
        let d := if dl < dr then dl else dr
        let strip := buildStrip midPoint d (pointsY.take n)
        let stripDist := stripClosest strip strip.length d
        some (if d < stripDist then d else stripDist)
      | _, _ => none
termination_by n
decreasing_by all_goals omega

/-- Function `closest(points, n)`: two copies of the first `n` points, one
sorted with `compareX`, one with `compareY`, handed to `closestUtil`. -/
def closest (qsort : (Point → Point → ℤ) → List Point → List Point)
    (points : List Point) (n : ℕ) : Option ℝ :=
  let pointsX := qsort compareX (points.take n)
  let pointsY := qsort compareY (points.take n)
  closestUtil pointsX pointsY n

/-- What the C standard promises of `qsort` for the two comparators of the
program: the result is a rearrangement of the input in which no entry compares
greater than a later one.  The order of entries that compare equal is left
open. -/
def QsortSpec (qsort : (Point → Point → ℤ) → List Point → List Point) : Prop :=
  ∀ l : List Point,
    (qsort compareX l).Perm l ∧ (qsort compareX l).Pairwise (fun a b => compareX a b ≤ 0) ∧
    (qsort compareY l).Perm l ∧ (qsort compareY l).Pairwise (fun a b => compareY a b ≤ 0)

/-- A conforming `qsort`: insertion sort, which keeps entries that compare equal
in their input order (as the merge sort of the GNU C library does). -/
def stableQsort (cmp : Point → Point → ℤ) (l : List Point) : List Point :=
  l.insertionSort (fun a b => cmp a b ≤ 0)

/-- The value `r` is what a scan of the pairs `(p, q)`, `q` in `l`, makes of the
running minimum `m`: the least of `m` and the distances `dist p q`. -/
def InnerMin (p : Point) (l : List Point) (m r : ℝ) : Prop :=
  r ≤ m ∧ (∀ q ∈ l, r ≤ dist p q) ∧ (r = m ∨ ∃ q ∈ l, r = dist p q)

/-- The value `r` is the least of `m` and the distances of all pairs of entries
of `l` (an entry paired with a later entry). -/
def MinOver (l : List Point) (m r : ℝ) : Prop :=
  r ≤ m ∧ l.Pairwise (fun a b => r ≤ dist a b) ∧
    (r = m ∨ ∃ a b, List.Sublist [a, b] l ∧ r = dist a b)

/-- The strip loop of `closestUtil` with its state spelled out: the list holds the
entries `strip[0 .. j)` written so far, and an entry of `pointsY` is appended when
`fabs(pointsY[i].x - midPoint.x) < d`. -/
def stripLoop (midPoint : Point) (d : ℝ) : List Point → List Point → List Point
  | [], strip => strip
  | p :: rest, strip =>
    if |p.x - midPoint.x| < d then stripLoop midPoint d rest (strip ++ [p])
    else stripLoop midPoint d rest strip

/-- Function `closestUtil` once more, returning next to its result the list of the
values of `n` with which it calls `closestPairBruteForce`, in call order. -/
def closestUtilTraced (pointsX pointsY : List Point) (n : ℕ) : Option ℝ × List ℕ :=
  if _h : n ≤ 3 then (some (closestPairBruteForce pointsX n), [n])
  else
    let mid := n / 2
    let midPoint := pointsX.getD mid default
    let parts := partitionY midPoint mid (pointsY.take n) ([], [])
    if n - mid < parts.2.length then (none, [])
    else
      let left := closestUtilTraced pointsX parts.1 mid
      let right := closestUtilTraced (pointsX.drop mid) parts.2 (n - mid)
      (match left.1, right.1 with
        | some dl, some dr =>
          let d := if dl < dr then dl else dr
          let strip := buildStrip midPoint d (pointsY.take n)
          let stripDist := stripClosest strip strip.length d
          some (if d < stripDist then d else stripDist)
        | _, _ => none,
       left.2 ++ right.2)
termination_by n
decreasing_by all_goals omega

/-- The values of `n` that reach `closestPairBruteForce` in the call tree of
`closestUtil(_, _, n)`, read off the sizes alone: a call with `n > 3` calls itself
with `mid = n / 2` and with `n - mid`, whatever the arrays hold. -/
def baseCaseSizes (n : ℕ) : List ℕ :=
  if _h : n ≤ 3 then [n]
  else baseCaseSizes (n / 2) ++ baseCaseSizes (n - n / 2)
termination_by n
decreasing_by all_goals omega

/-! ## The arithmetic of `double`

The definitions above compute with exact reals.  The ones below evaluate the
arithmetic of `dist` as the program does, in IEEE 754 binary64 with rounding to
nearest, ties to even: every subtraction, multiplication, addition and `sqrt` is
rounded once.  A double value is an extended real: a finite double, `⊤` for `+∞`
or `⊥` for `-∞`.  The coordinates of the points are finite. -/

/-- The integer nearest to `q`, ties to the even one. -/
def roundHalfEven (q : ℝ) : ℤ :=
  if q - ⌊q⌋ < 1 / 2 then ⌊q⌋
  else if 1 / 2 < q - ⌊q⌋ then ⌊q⌋ + 1
  else if Even ⌊q⌋ then ⌊q⌋ else ⌊q⌋ + 1

/-- The spacing of the doubles around `x ≥ 0`: `2^(e - 52)` with `e` the binary
exponent of `x`, not below `-1022` (the subnormal range). -/
def ulp (x : ℝ) : ℝ := (2 : ℝ) ^ (max (Int.log 2 x) (-1022) - 52)

/-- The multiple of `ulp x` nearest to `x ≥ 0`, ties to the even multiple. -/
def roundFinite (x : ℝ) : ℝ := roundHalfEven (x / ulp x) * ulp x

/-- Rounding of a real `x ≥ 0` to a double: `+∞` once the rounded value reaches
`2^1024`. -/
def roundNonneg (x : ℝ) : EReal :=
  if (2 : ℝ) ^ (1024 : ℤ) ≤ roundFinite x then ⊤ else (roundFinite x : EReal)

/-- Rounding of a real to a double. -/
def roundDouble (x : ℝ) : EReal :=
  if x < 0 then -roundNonneg (-x) else roundNonneg x

/-- Rounding of an exact result that may be infinite. -/
def roundE (v : EReal) : EReal :=
  if v = ⊤ then ⊤ else if v = ⊥ then ⊥ else roundDouble v.toReal

/-- The exact square root of a double value that is not negative. -/
def sqrtE (v : EReal) : EReal :=
  if v = ⊤ then ⊤ else ((Real.sqrt v.toReal : ℝ) : EReal)

/-- The `double` subtraction `a - b` of two finite doubles. -/
def subDouble (a b : ℝ) : EReal := roundDouble (a - b)

/-- The library function `fabs`. -/
def fabsE (v : EReal) : EReal := if v < 0 then -v else v

/-- Function `dist` in double arithmetic:
`sqrt((p1.x - p2.x)*(p1.x - p2.x) + (p1.y - p2.y)*(p1.y - p2.y))`. -/
def distDouble (p1 p2 : Point) : EReal :=
  roundE (sqrtE (roundE (
    roundE (subDouble p1.x p2.x * subDouble p1.x p2.x)
      + roundE (subDouble p1.y p2.y * subDouble p1.y p2.y))))

/-- Inner loop of `closestPairBruteForce` in double arithmetic. -/
def bruteInnerDouble (p : Point) : List Point → EReal → EReal
  | [], min => min
  | q :: rest, min =>
    bruteInnerDouble p rest (if distDouble p q < min then distDouble p q else min)

/-- Outer loop of `closestPairBruteForce` in double arithmetic. -/
def bruteOuterDouble : List Point → EReal → EReal
  | [], min => min
  | p :: rest, min => bruteOuterDouble rest (bruteInnerDouble p rest min)

/-- Function `closestPairBruteForce(points, n)` in double arithmetic. -/
def closestPairBruteForceDouble (points : List Point) (n : ℕ) : EReal :=
  bruteOuterDouble (points.take n) (DBL_MAX : ℝ)

/-- Inner loop of `stripClosest` in double arithmetic: the loop stops at the first
`q` for which the double `strip[j].y - strip[i].y` is not below the running
minimum. -/
def stripInnerDouble (p : Point) : List Point → EReal → EReal
  | [], min => min
  | q :: rest, min =>
    if subDouble q.y p.y < min then
      stripInnerDouble p rest (if distDouble p q < min then distDouble p q else min)
    else min

/-- Outer loop of `stripClosest` in double arithmetic. -/
def stripOuterDouble : List Point → EReal → EReal
  | [], min => min
  | p :: rest, min => stripOuterDouble rest (stripInnerDouble p rest min)

/-- Function `stripClosest(strip, size, d)` in double arithmetic. -/
def stripClosestDouble (strip : List Point) (size : ℕ) (d : EReal) : EReal :=
  stripOuterDouble (strip.take size) d

/-- The strip of `closestUtil` in double arithmetic: the entries of `pointsY` with
`fabs(pointsY[i].x - midPoint.x) < d`, in order. -/
def buildStripDouble (midPoint : Point) (d : EReal) (pointsY : List Point) : List Point :=
  pointsY.filter (fun p => decide (fabsE (subDouble p.x midPoint.x) < d))

/-- Function `closestUtil(pointsX, pointsY, n)` in double arithmetic; the partition
loop compares coordinates only and is the one of `closestUtil`. -/
def closestUtilDouble (pointsX pointsY : List Point) (n : ℕ) : Option EReal :=
  if _h : n ≤ 3 then some (closestPairBruteForceDouble pointsX n)
  else
    let mid := n / 2
    let midPoint := pointsX.getD mid default
    let parts := partitionY midPoint mid (pointsY.take n) ([], [])
    if n - mid < parts.2.length then none
    else
      match closestUtilDouble pointsX parts.1 mid,
          closestUtilDouble (pointsX.drop mid) parts.2 (n - mid) with
      | some dl, some dr =>
        let d := if dl < dr then dl else dr
        let strip := buildStripDouble midPoint d (pointsY.take n)
        let stripDist := stripClosestDouble strip strip.length d
        some (if d < stripDist then d else stripDist)
      | _, _ => none
termination_by n
decreasing_by all_goals omega

/-- Function `closest(points, n)` in double arithmetic. -/
def closestDouble (qsort : (Point → Point → ℤ) → List Point → List Point)
    (points : List Point) (n : ℕ) : Option EReal :=
  let pointsX := qsort compareX (points.take n)
  let pointsY := qsort compareY (points.take n)
  closestUtilDouble pointsX pointsY n

/-- The value `r` is what a scan of the pairs `(p, q)`, `q` in `l`, makes of the
running minimum `m` in double arithmetic: `r` is `m` or the computed distance of a
scanned pair, and is at most `m` and at most `bound p q` for every `q`. -/
def InnerMinDouble (bound : Point → Point → EReal) (p : Point) (l : List Point)
    (m r : EReal) : Prop :=
  r ≤ m ∧ (∀ q ∈ l, r ≤ bound p q) ∧ (r = m ∨ ∃ q ∈ l, r = distDouble p q)

/-- The value `r` is `m` or the computed distance of a pair of entries of `l`, and is
at most `m` and at most `bound a b` for every entry `a` and later entry `b`. -/
def MinOverDouble (bound : Point → Point → EReal) (l : List Point) (m r : EReal) : Prop :=
  r ≤ m ∧ l.Pairwise (fun a b => r ≤ bound a b) ∧
    (r = m ∨ ∃ a b, List.Sublist [a, b] l ∧ r = distDouble a b)

/-- What the scan of `stripClosest` keeps the running minimum below for the pair
`(p, q)`: the computed distance when the pair is compared, the computed y-gap when
the early exit skips it. -/
def stripBound (p q : Point) : EReal := max (distDouble p q) (subDouble q.y p.y)

/-! ## The distance -/

theorem dist_nonneg (p q : Point) : 0 ≤ dist p q := Real.sqrt_nonneg _

theorem dist_comm (p q : Point) : dist p q = dist q p := by
  unfold dist
  congr 1
  ring

/-! ## Running minima over the pairs of a list -/

theorem MinOver.cons {p : Point} {l : List Point} {m r1 r : ℝ}
    (h1 : InnerMin p l m r1) (h2 : MinOver l r1 r) : MinOver (p :: l) m r := by
  obtain ⟨h1a, h1b, h1c⟩ := h1
  obtain ⟨h2a, h2b, h2c⟩ := h2
  refine ⟨le_trans h2a h1a, ?_, ?_⟩
  · rw [List.pairwise_cons]
    exact ⟨fun q hq => le_trans h2a (h1b q hq), h2b⟩
  · rcases h2c with h | ⟨a, b, hab, h⟩
    · rcases h1c with h' | ⟨q, hq, h'⟩
      · left; rw [h, h']
      · right
        refine ⟨p, q, ?_, by rw [h, h']⟩
        exact List.Sublist.cons₂ p (List.singleton_sublist.mpr hq)
    · right
      exact ⟨a, b, List.Sublist.cons p hab, h⟩

theorem MinOver.unique {l : List Point} {m r r' : ℝ}
    (h : MinOver l m r) (h' : MinOver l m r') : r = r' := by
  have key : ∀ {s t : ℝ}, MinOver l m s → MinOver l m t → s ≤ t := by
    intro s t hs ht
    rcases ht.2.2 with e | ⟨a, b, hab, e⟩
    · rw [e]; exact hs.1
    · rw [e]; exact List.pairwise_iff_forall_sublist.mp hs.2.1 hab
  exact le_antisymm (key h h') (key h' h)

theorem MinOver.perm {l l' : List Point} {m r : ℝ} (hp : l.Perm l')
    (h : MinOver l m r) : MinOver l' m r := by
  obtain ⟨ha, hb, hc⟩ := h
  refine ⟨ha, ?_, ?_⟩
  · refine (List.Perm.pairwise_iff ?_ hp).mp hb
    intro x y hxy
    rw [dist_comm]; exact hxy
  · rcases hc with e | ⟨a, b, hab, e⟩
    · exact Or.inl e
    · right
      by_contra hne
      have hpw : l'.Pairwise (fun a b => r ≠ dist a b) := by
        rw [List.pairwise_iff_forall_sublist]
        intro a b hab' e'
        exact hne ⟨a, b, hab', e'⟩
      have hpw' : l.Pairwise (fun a b => r ≠ dist a b) := by
        refine (List.Perm.pairwise_iff ?_ hp.symm).mp hpw
        intro x y hxy
        rw [dist_comm]; exact hxy
      exact List.pairwise_iff_forall_sublist.mp hpw' hab e

theorem min_step (a m : ℝ) :
    (if a < m then a else m) ≤ m ∧ (if a < m then a else m) ≤ a ∧
      ((if a < m then a else m) = m ∨ (if a < m then a else m) = a) := by
  split_ifs with h
  · exact ⟨le_of_lt h, le_refl _, Or.inr rfl⟩
  · exact ⟨le_refl _, not_lt.mp h, Or.inl rfl⟩

theorem InnerMin.step {p q : Point} {rest : List Point} {m r : ℝ}
    (h : InnerMin p rest (if dist p q < m then dist p q else m) r) :
    InnerMin p (q :: rest) m r := by
  obtain ⟨h1, h2, h3⟩ := h
  obtain ⟨k1, k2, k3⟩ := min_step (dist p q) m
  refine ⟨le_trans h1 k1, ?_, ?_⟩
  · intro q' hq'
    rcases List.mem_cons.mp hq' with rfl | hq'
    · exact le_trans h1 k2
    · exact h2 q' hq'
  · rcases h3 with e | ⟨q', hq', e⟩
    · rcases k3 with k | k
      · exact Or.inl (e.trans k)
      · exact Or.inr ⟨q, List.mem_cons_self _ _, e.trans k⟩
    · exact Or.inr ⟨q', List.mem_cons_of_mem _ hq', e⟩

theorem bruteInner_spec (p : Point) (l : List Point) (m : ℝ) :
    InnerMin p l m (bruteInner p l m) := by
  induction l generalizing m with
  | nil => exact ⟨le_refl _, by simp, Or.inl rfl⟩
  | cons q rest ih =>
    simp only [bruteInner]
    exact InnerMin.step (ih _)

theorem bruteOuter_spec (l : List Point) (m : ℝ) : MinOver l m (bruteOuter l m) := by
  induction l generalizing m with
  | nil => exact ⟨le_refl _, List.Pairwise.nil, Or.inl rfl⟩
  | cons p rest ih =>
    simp only [bruteOuter]
    exact MinOver.cons (bruteInner_spec p rest m) (ih _)

theorem bruteOuter_perm {l l' : List Point} (hp : l.Perm l') (m : ℝ) :
    bruteOuter l m = bruteOuter l' m :=
  MinOver.unique ((bruteOuter_spec l m).perm hp) (bruteOuter_spec l' m)

/-! ## The strip solver -/

theorem sub_y_le_dist (p q : Point) : q.y - p.y ≤ dist p q := by
  unfold dist
  apply Real.le_sqrt_of_sq_le
  nlinarith [mul_self_nonneg (p.x - q.x)]

theorem sub_x_le_dist (p q : Point) : q.x - p.x ≤ dist p q := by
  unfold dist
  apply Real.le_sqrt_of_sq_le
  nlinarith [mul_self_nonneg (p.y - q.y)]

theorem stripInner_spec (p : Point) (l : List Point) (m : ℝ)
    (hs : l.Pairwise (fun a b => a.y ≤ b.y)) : InnerMin p l m (stripInner p l m) := by
  induction l generalizing m with
  | nil => exact ⟨le_refl _, by simp, Or.inl rfl⟩
  | cons q rest ih =>
    rw [List.pairwise_cons] at hs
    simp only [stripInner]
    by_cases hgap : q.y - p.y < m
    · rw [if_pos hgap]
      exact InnerMin.step (ih _ hs.2)
    · rw [if_neg hgap]
      refine ⟨le_refl _, ?_, Or.inl rfl⟩
      intro q' hq'
      have hy : q.y ≤ q'.y := by
        rcases List.mem_cons.mp hq' with rfl | hq'
        · exact le_refl _
        · exact hs.1 q' hq'
      have := sub_y_le_dist p q'
      linarith [not_lt.mp hgap]

theorem stripOuter_spec (l : List Point) (m : ℝ)
    (hs : l.Pairwise (fun a b => a.y ≤ b.y)) : MinOver l m (stripOuter l m) := by
  induction l generalizing m with
  | nil => exact ⟨le_refl _, List.Pairwise.nil, Or.inl rfl⟩
  | cons p rest ih =>
    simp only [stripOuter]
    rw [List.pairwise_cons] at hs
    exact MinOver.cons (stripInner_spec p rest m hs.2) (ih _ hs.2)

/-! ## Evaluating distances -/

theorem dist_eq_of_sq {p q : Point} {r : ℝ} (h0 : 0 ≤ r)
    (h : (p.x - q.x) * (p.x - q.x) + (p.y - q.y) * (p.y - q.y) = r * r) :
    dist p q = r := by
  unfold dist
  rw [h]
  exact Real.sqrt_mul_self h0

theorem DBL_MAX_pos : 0 < DBL_MAX := by
  unfold DBL_MAX
  norm_num

theorem closestUtil_base (pointsX pointsY : List Point) (n : ℕ) (h : n ≤ 3) :
    closestUtil pointsX pointsY n = some (closestPairBruteForce pointsX n) := by
  rw [closestUtil, dif_pos h]

theorem closestUtil_rec (pointsX pointsY : List Point) (n : ℕ) (h : 3 < n) :
    closestUtil pointsX pointsY n =
      if n - n / 2 < (partitionY (pointsX.getD (n / 2) default) (n / 2)
          (pointsY.take n) ([], [])).2.length then none
      else
        match closestUtil pointsX (partitionY (pointsX.getD (n / 2) default) (n / 2)
              (pointsY.take n) ([], [])).1 (n / 2),
            closestUtil (pointsX.drop (n / 2)) (partitionY (pointsX.getD (n / 2) default)
              (n / 2) (pointsY.take n) ([], [])).2 (n - n / 2) with
        | some dl, some dr =>
          some (if (if dl < dr then dl else dr)
                < stripClosest (buildStrip (pointsX.getD (n / 2) default)
                    (if dl < dr then dl else dr) (pointsY.take n))
                  (buildStrip (pointsX.getD (n / 2) default)
                    (if dl < dr then dl else dr) (pointsY.take n)).length
                  (if dl < dr then dl else dr)
            then (if dl < dr then dl else dr)
            else stripClosest (buildStrip (pointsX.getD (n / 2) default)
                    (if dl < dr then dl else dr) (pointsY.take n))
                  (buildStrip (pointsX.getD (n / 2) default)
                    (if dl < dr then dl else dr) (pointsY.take n)).length
                  (if dl < dr then dl else dr))
        | _, _ => none := by
  rw [closestUtil, dif_neg (by omega)]

theorem compareX_le_zero_iff (a b : Point) : compareX a b ≤ 0 ↔ a.x ≤ b.x := by
  unfold compareX
  rcases lt_trichotomy a.x b.x with h | h | h
  · simp [h, not_lt_of_lt h, le_of_lt h]
  · simp [h]
  · simp [h, not_lt_of_lt h, not_le_of_lt h]

theorem compareY_le_zero_iff (a b : Point) : compareY a b ≤ 0 ↔ a.y ≤ b.y := by
  unfold compareY
  rcases lt_trichotomy a.y b.y with h | h | h
  · simp [h, not_lt_of_lt h, le_of_lt h]
  · simp [h]
  · simp [h, not_lt_of_lt h, not_le_of_lt h]

theorem stableQsort_spec : QsortSpec stableQsort := by
  intro l
  refine ⟨List.perm_insertionSort _ l, ?_, List.perm_insertionSort _ l, ?_⟩
  · have htot : IsTotal Point (fun a b => compareX a b ≤ 0) :=
      ⟨fun a b => by simp only [compareX_le_zero_iff]; exact le_total _ _⟩
    have htr : IsTrans Point (fun a b => compareX a b ≤ 0) :=
      ⟨fun a b c => by simp only [compareX_le_zero_iff]; exact le_trans⟩
    exact List.sorted_insertionSort _ l
  · have htot : IsTotal Point (fun a b => compareY a b ≤ 0) :=
      ⟨fun a b => by simp only [compareY_le_zero_iff]; exact le_total _ _⟩
    have htr : IsTrans Point (fun a b => compareY a b ≤ 0) :=
      ⟨fun a b c => by simp only [compareY_le_zero_iff]; exact le_trans⟩
    exact List.sorted_insertionSort _ l

theorem bruteOuter_short (l : List Point) (m : ℝ) (h : l.length < 2) :
    bruteOuter l m = m := by
  match l, h with
  | [], _ => rfl
  | [_], _ => rfl

theorem closestPairBruteForce_perm {l l' : List Point} (hp : l.Perm l') (n : ℕ)
    (hn : l'.length = n) : closestPairBruteForce l n = closestPairBruteForce l' n := by
  unfold closestPairBruteForce
  rw [← hn, List.take_length, ← hp.length_eq, List.take_length]
  exact bruteOuter_perm hp _

/-! ## Claims about small inputs -/

/-- Claim C6, as amended: with fewer than two points nothing is rejected; `closest`
(whatever the sort does) and `closestPairBruteForce` return the initial value
`DBL_MAX`. -/
theorem fewer_than_two_points_return_DBL_MAX
    (qsort : (Point → Point → ℤ) → List Point → List Point)
    (points : List Point) (n : ℕ) (hn : n < 2) :
    closest qsort points n = some DBL_MAX ∧ closestPairBruteForce points n = DBL_MAX := by
  have hb : ∀ l : List Point, closestPairBruteForce l n = DBL_MAX := by
    intro l
    unfold closestPairBruteForce
    apply bruteOuter_short
    have := List.length_take_le n l
    omega
  refine ⟨?_, hb points⟩
  unfold closest
  rw [closestUtil_base _ _ _ (by omega), hb]

/-- The amended claim C6 for a single point. -/
theorem fewer_than_two_points_return_DBL_MAX_witness :
    closest stableQsort [⟨1, 2⟩] 1 = some DBL_MAX ∧
      closestPairBruteForce [⟨1, 2⟩] 1 = DBL_MAX :=
  fewer_than_two_points_return_DBL_MAX stableQsort [⟨1, 2⟩] 1 (by decide)

/-- Claim C6 as stated fails: called with no point or with one point, `closest` and
`closestPairBruteForce` signal no error (`closest` has a result) and hand the value
`DBL_MAX` back to the caller. -/
theorem no_rejection_of_small_inputs :
    closest stableQsort [] 0 = some DBL_MAX ∧
    closest stableQsort [⟨1, 2⟩] 1 = some DBL_MAX ∧
    closestPairBruteForce [] 0 = DBL_MAX ∧
    closestPairBruteForce [⟨1, 2⟩] 1 = DBL_MAX := by
  refine ⟨?_, ?_, ?_, ?_⟩ <;>
    simp [closest, stableQsort, closestUtil_base, closestPairBruteForce, bruteOuter, bruteInner]

/-- Claim C8: for `n ≤ 3`, `closestUtil pointsX pointsY n` is
`closestPairBruteForce pointsX n` whatever `pointsY` is; hence on an input of exactly
two or three points `closest` is `closestPairBruteForce` of the unsorted input. -/
theorem closestUtil_terminal_case
    (qsort : (Point → Point → ℤ) → List Point → List Point) (hq : QsortSpec qsort)
    (pointsX pointsY pointsY' points : List Point) (n : ℕ) (hn : n ≤ 3) :
    closestUtil pointsX pointsY n = some (closestPairBruteForce pointsX n) ∧
    closestUtil pointsX pointsY' n = closestUtil pointsX pointsY n ∧
    (2 ≤ n → points.length = n →
      closest qsort points n = some (closestPairBruteForce points n)) := by
  refine ⟨closestUtil_base _ _ _ hn, ?_, ?_⟩
  · rw [closestUtil_base _ _ _ hn, closestUtil_base _ _ _ hn]
  · intro _ hlen
    unfold closest
    rw [closestUtil_base _ _ _ hn, ← hlen, List.take_length]
    rw [closestPairBruteForce_perm (hq points).1 _ rfl]

/-- Claim C8 at the two points `(0,0)`, `(3,4)`. -/
theorem closestUtil_terminal_case_witness :
    closestUtil [⟨0, 0⟩, ⟨3, 4⟩] [⟨0, 0⟩, ⟨3, 4⟩] 2
      = some (closestPairBruteForce [⟨0, 0⟩, ⟨3, 4⟩] 2) ∧
    closestUtil [⟨0, 0⟩, ⟨3, 4⟩] [] 2 = closestUtil [⟨0, 0⟩, ⟨3, 4⟩] [⟨0, 0⟩, ⟨3, 4⟩] 2 ∧
    (2 ≤ 2 → [(⟨3, 4⟩ : Point), ⟨0, 0⟩].length = 2 →
      closest stableQsort [⟨3, 4⟩, ⟨0, 0⟩] 2
        = some (closestPairBruteForce [⟨3, 4⟩, ⟨0, 0⟩] 2)) :=
  closestUtil_terminal_case stableQsort stableQsort_spec _ _ _ _ 2 (by decide)

/-! ## Correctness of the divide and conquer on distinct x-coordinates -/

theorem pair_attained_perm {l l' : List Point} {r : ℝ} (hp : l.Perm l')
    (h : ∃ a b, List.Sublist [a, b] l ∧ r = dist a b) :
    ∃ a b, List.Sublist [a, b] l' ∧ r = dist a b := by
  obtain ⟨a, b, hab, e⟩ := h
  by_contra hne
  have hpw : l'.Pairwise (fun a b => r ≠ dist a b) := by
    rw [List.pairwise_iff_forall_sublist]
    intro a b hab' e'
    exact hne ⟨a, b, hab', e'⟩
  have hpw' : l.Pairwise (fun a b => r ≠ dist a b) := by
    refine (List.Perm.pairwise_iff ?_ hp.symm).mp hpw
    intro x y hxy
    rw [dist_comm]; exact hxy
  exact List.pairwise_iff_forall_sublist.mp hpw' hab e

/-- The partition loop, as long as the cap `li < mid` does not bite: the entries that
pass `isLeft` go left, the others right, in order. -/
theorem partitionY_eq_filter (midPoint : Point) (mid : ℕ) (l : List Point)
    (acc : List Point × List Point)
    (h : acc.1.length + (l.filter (fun p => decide (isLeft midPoint p))).length ≤ mid) :
    partitionY midPoint mid l acc =
      (acc.1 ++ l.filter (fun p => decide (isLeft midPoint p)),
       acc.2 ++ l.filter (fun p => !decide (isLeft midPoint p))) := by
  induction l generalizing acc with
  | nil => simp [partitionY]
  | cons p rest ih =>
    by_cases hp : isLeft midPoint p
    · have hf : (p :: rest).filter (fun p => decide (isLeft midPoint p))
          = p :: rest.filter (fun p => decide (isLeft midPoint p)) := by
        simp [List.filter_cons, hp]
      rw [hf, List.length_cons] at h
      have hlt : acc.1.length < mid := by omega
      rw [partitionY, if_pos ⟨hp, hlt⟩, ih]
      · simp [List.filter_cons, hp]
      · simp only [List.length_append, List.length_singleton]
        omega
    · have hf : (p :: rest).filter (fun p => decide (isLeft midPoint p))
          = rest.filter (fun p => decide (isLeft midPoint p)) := by
        simp [List.filter_cons, hp]
      rw [hf] at h
      rw [partitionY, if_neg (fun hc => hp hc.1), ih (acc.1, acc.2 ++ [p]) h]
      simp [List.filter_cons, hp]

/-- The partition of a Y view against an X view `L ++ midPoint :: R` with strictly
increasing x: the left side is a rearrangement of `L`, the right side one of
`midPoint :: R`. -/
theorem partitionY_matches_split (L R pointsY : List Point) (midPoint : Point)
    (hX : (L ++ midPoint :: R).Pairwise (fun a b => a.x < b.x))
    (hperm : pointsY.Perm (L ++ midPoint :: R)) :
    ∃ yl yr, partitionY midPoint L.length pointsY ([], []) = (yl, yr) ∧
      yl.Perm L ∧ yr.Perm (midPoint :: R) ∧ List.Sublist yl pointsY ∧ List.Sublist yr pointsY := by
  rw [List.pairwise_append] at hX
  obtain ⟨_, hR, hLR⟩ := hX
  rw [List.pairwise_cons] at hR
  have hL1 : L.filter (fun p => decide (isLeft midPoint p)) = L := by
    rw [List.filter_eq_self]
    intro a ha
    simp only [decide_eq_true_eq]
    exact Or.inl (hLR a ha midPoint (List.mem_cons_self _ _))
  have hR1 : (midPoint :: R).filter (fun p => decide (isLeft midPoint p)) = [] := by
    rw [List.filter_eq_nil_iff]
    intro a ha
    simp only [decide_eq_true_eq, isLeft]
    rcases List.mem_cons.mp ha with rfl | ha
    · simp
    · have := hR.1 a ha
      rintro (h | ⟨h, _⟩) <;> linarith
  have hL2 : L.filter (fun p => !decide (isLeft midPoint p)) = [] := by
    rw [List.filter_eq_nil_iff]
    intro a ha
    simp only [Bool.not_eq_true', decide_eq_false_iff_not, not_not]
    exact Or.inl (hLR a ha midPoint (List.mem_cons_self _ _))
  have hR2 : (midPoint :: R).filter (fun p => !decide (isLeft midPoint p)) = midPoint :: R := by
    rw [List.filter_eq_self]
    intro a ha
    have := List.filter_eq_nil_iff.mp hR1 a ha
    simpa using this
  have hyl : (pointsY.filter (fun p => decide (isLeft midPoint p))).Perm L := by
    have := hperm.filter (fun p => decide (isLeft midPoint p))
    rwa [List.filter_append, hL1, hR1, List.append_nil] at this
  have hyr : (pointsY.filter (fun p => !decide (isLeft midPoint p))).Perm (midPoint :: R) := by
    have := hperm.filter (fun p => !decide (isLeft midPoint p))
    rwa [List.filter_append, hL2, hR2, List.nil_append] at this
  refine ⟨_, _, ?_, hyl, hyr, List.filter_sublist _, List.filter_sublist _⟩
  rw [partitionY_eq_filter]
  · simp
  · simp only [List.length_nil, zero_add]
    exact le_of_eq hyl.length_eq


theorem stripInner_le (p : Point) (l : List Point) (m : ℝ) : stripInner p l m ≤ m := by
  induction l generalizing m with
  | nil => exact le_refl _
  | cons q rest ih =>
    simp only [stripInner]
    split_ifs with h1 h2
    · exact le_trans (ih _) (le_of_lt h2)
    · exact ih _
    · exact le_refl _

theorem stripOuter_le (l : List Point) (m : ℝ) : stripOuter l m ≤ m := by
  induction l generalizing m with
  | nil => exact le_refl _
  | cons p rest ih =>
    simp only [stripOuter]
    exact le_trans (ih _) (stripInner_le p rest m)

theorem stripClosest_le (strip : List Point) (size : ℕ) (d : ℝ) :
    stripClosest strip size d ≤ d :=
  stripOuter_le _ _

/-- The merge step of `closestUtil`: with the minima `dl`, `dr` of the two halves of
an X view with strictly increasing x, the strip of a y-ordered Y view over the same
points yields the minimum over the whole view. -/
theorem strip_merge (L R pointsY : List Point) (midPoint : Point) (dl dr : ℝ)
    (hX : (L ++ midPoint :: R).Pairwise (fun a b => a.x < b.x))
    (hperm : pointsY.Perm (L ++ midPoint :: R))
    (hYs : pointsY.Pairwise (fun a b => a.y ≤ b.y))
    (hl : MinOver L DBL_MAX dl) (hr : MinOver (midPoint :: R) DBL_MAX dr) :
    MinOver (L ++ midPoint :: R) DBL_MAX
      (stripClosest (buildStrip midPoint (if dl < dr then dl else dr) pointsY)
        (buildStrip midPoint (if dl < dr then dl else dr) pointsY).length
        (if dl < dr then dl else dr)) := by
  obtain ⟨hd1, hd2, hd3⟩ := min_step dl dr
  generalize (if dl < dr then dl else dr) = d at hd1 hd2 hd3 ⊢
  have hsub : List.Sublist (buildStrip midPoint d pointsY) pointsY := List.filter_sublist _
  have hs : MinOver (buildStrip midPoint d pointsY) d
      (stripClosest (buildStrip midPoint d pointsY) (buildStrip midPoint d pointsY).length d) := by
    unfold stripClosest
    rw [List.take_length]
    exact stripOuter_spec _ _ (hYs.sublist hsub)
  generalize stripClosest (buildStrip midPoint d pointsY)
    (buildStrip midPoint d pointsY).length d = r at hs ⊢
  obtain ⟨hs1, hs2, hs3⟩ := hs
  have hrl : r ≤ dl := le_trans hs1 hd2
  have hrr : r ≤ dr := le_trans hs1 hd1
  rw [List.pairwise_append] at hX
  obtain ⟨_, hRs, hLR⟩ := hX
  rw [List.pairwise_cons] at hRs
  refine ⟨le_trans hrl hl.1, ?_, ?_⟩
  · rw [List.pairwise_append]
    refine ⟨hl.2.1.imp (fun h => le_trans hrl h), hr.2.1.imp (fun h => le_trans hrr h), ?_⟩
    intro a ha b hb
    by_cases hfar : d ≤ dist a b
    · exact le_trans hs1 hfar
    · have hlt : dist a b < d := not_le.mp hfar
      have hab : b.x - a.x ≤ dist a b := sub_x_le_dist a b
      have ham : a.x < midPoint.x := hLR a ha midPoint (List.mem_cons_self _ _)
      have hmb : midPoint.x ≤ b.x := by
        rcases List.mem_cons.mp hb with rfl | hb'
        · exact le_refl _
        · exact le_of_lt (hRs.1 b hb')
      have hax : a ∈ buildStrip midPoint d pointsY := by
        unfold buildStrip
        rw [List.mem_filter]
        refine ⟨hperm.symm.subset (List.mem_append_left _ ha), ?_⟩
        simp only [decide_eq_true_eq]
        rw [abs_lt]
        constructor <;> linarith
      have hbx : b ∈ buildStrip midPoint d pointsY := by
        unfold buildStrip
        rw [List.mem_filter]
        refine ⟨hperm.symm.subset (List.mem_append_right _ hb), ?_⟩
        simp only [decide_eq_true_eq]
        rw [abs_lt]
        constructor <;> linarith
      have hne : a ≠ b := by
        intro e
        rw [e] at ham
        linarith
      have hsymm : Symmetric (fun a b : Point => r ≤ dist a b) := by
        intro x y hxy
        rw [dist_comm]; exact hxy
      exact hs2.forall hsymm hax hbx hne
  · rcases hs3 with e | ⟨a, b, hab, e⟩
    · rcases hd3 with e' | e'
      · rcases hr.2.2 with e2 | ⟨a, b, hab, e2⟩
        · exact Or.inl (e.trans (e'.trans e2))
        · exact Or.inr ⟨a, b, hab.trans (List.sublist_append_right _ _), e.trans (e'.trans e2)⟩
      · rcases hl.2.2 with e2 | ⟨a, b, hab, e2⟩
        · exact Or.inl (e.trans (e'.trans e2))
        · exact Or.inr ⟨a, b, hab.trans (List.sublist_append_left _ _), e.trans (e'.trans e2)⟩
    · exact Or.inr (pair_attained_perm hperm ⟨a, b, hab.trans hsub, e⟩)

/-- On an X view with strictly increasing x and a y-ordered Y view over the same
points, `closestUtil` returns a value, and that value is the brute-force minimum. -/
theorem closestUtil_eq_bruteOuter (n : ℕ) :
    ∀ pointsX pointsY : List Point, n ≤ pointsX.length →
      (pointsX.take n).Pairwise (fun a b => a.x < b.x) →
      pointsY.Perm (pointsX.take n) →
      pointsY.Pairwise (fun a b => a.y ≤ b.y) →
      closestUtil pointsX pointsY n = some (bruteOuter (pointsX.take n) DBL_MAX) := by
  induction n using Nat.strong_induction_on with
  | _ n ih =>
    intro pointsX pointsY hlen hX hperm hYs
    by_cases hn : n ≤ 3
    · rw [closestUtil_base _ _ _ hn]
      rfl
    · have hn3 : 3 < n := by omega
      have hmid : n / 2 < n := by omega
      have hlt : n / 2 < pointsX.length := by omega
      have hmp : pointsX.getD (n / 2) default = pointsX[n / 2] :=
        List.getD_eq_getElem _ _ hlt
      have hR : (pointsX.drop (n / 2)).take (n - n / 2)
          = pointsX[n / 2] :: (pointsX.drop (n / 2 + 1)).take (n - n / 2 - 1) := by
        rw [List.drop_eq_getElem_cons hlt, List.take_cons (by omega)]
      have hsplit : pointsX.take n = pointsX.take (n / 2)
          ++ pointsX[n / 2] :: (pointsX.drop (n / 2 + 1)).take (n - n / 2 - 1) := by
        rw [← hR, ← List.take_add]
        congr 1
        omega
      have hYlen : pointsY.length = n := by
        rw [hperm.length_eq, List.length_take, Nat.min_eq_left hlen]
      have hLlen : (pointsX.take (n / 2)).length = n / 2 := by
        rw [List.length_take]
        omega
      rw [hsplit] at hX hperm
      obtain ⟨yl, yr, hparts, hyl, hyr, hsl, hsr⟩ :=
        partitionY_matches_split _ _ pointsY _ hX hperm
      rw [hLlen] at hparts
      have hXa := List.pairwise_append.mp hX
      have hL := ih (n / 2) hmid pointsX yl (by omega) hXa.1 hyl (hYs.sublist hsl)
      have hRr := ih (n - n / 2) (by omega) (pointsX.drop (n / 2)) yr
        (by rw [List.length_drop]; omega) (by rw [hR]; exact hXa.2.1)
        (by rw [hR]; exact hyr) (hYs.sublist hsr)
      rw [hR] at hRr
      have hyrlen : yr.length = n - n / 2 := by
        rw [hyr.length_eq, ← hR, List.length_take, List.length_drop]
        omega
      rw [closestUtil_rec _ _ _ hn3, hmp, List.take_of_length_le (le_of_eq hYlen), hparts]
      simp only [hyrlen, lt_irrefl, if_false, hL, hRr]
      have hm := strip_merge _ _ pointsY _ _ _ hX hperm hYs
        (bruteOuter_spec (pointsX.take (n / 2)) DBL_MAX)
        (bruteOuter_spec
          (pointsX[n / 2] :: (pointsX.drop (n / 2 + 1)).take (n - n / 2 - 1)) DBL_MAX)
      rw [if_neg (not_lt.mpr (stripClosest_le _ _ _)), hsplit]
      exact congrArg some (MinOver.unique hm (bruteOuter_spec _ _))

/-! ## Inputs with equal x-coordinates

`compareX` looks at `x` only, so `qsort` may leave points of equal `x` in any order,
while the partition loop of `closestUtil` splits them by `y`.  The runs below use
the stable sort, which leaves an input that is already in x order as it is. -/

theorem le_dist_of_sq {p q : Point} {r : ℝ}
    (h : r * r ≤ (p.x - q.x) * (p.x - q.x) + (p.y - q.y) * (p.y - q.y)) :
    r ≤ dist p q := by
  unfold dist
  apply Real.le_sqrt_of_sq_le
  rw [sq]
  exact h

theorem small_lt_DBL_MAX {r : ℝ} (h : r ≤ 100) : r < DBL_MAX := by
  unfold DBL_MAX
  have : (100 : ℝ) < 2 ^ 1024 - 2 ^ 971 := by norm_num
  linarith

/-- The right half of the eight-point runs: X view `(100,50),(100,3),(200,60),(203,64)`
with a Y view that holds `q` in place of `(100,3)`. -/
theorem closestUtil_right_half (q : Point) (hq : q.x < 200) (hq' : 5 ≤ |q.x - 200|) :
    closestUtil [⟨100, 50⟩, ⟨100, 3⟩, ⟨200, 60⟩, ⟨203, 64⟩]
      [q, ⟨100, 50⟩, ⟨200, 60⟩, ⟨203, 64⟩] 4 = some 5 := by
  have d5 : dist ⟨100, 50⟩ ⟨100, 3⟩ = 47 := dist_eq_of_sq (by norm_num) (by norm_num)
  have d6 : dist ⟨200, 60⟩ ⟨203, 64⟩ = 5 := dist_eq_of_sq (by norm_num) (by norm_num)
  have hm3 : (47 : ℝ) < DBL_MAX := small_lt_DBL_MAX (by norm_num)
  have hm4 : (5 : ℝ) < DBL_MAX := small_lt_DBL_MAX (by norm_num)
  have hq2 : ¬ |q.x - 200| < 5 := not_lt.mpr hq'
  rw [closestUtil_rec _ _ _ (by norm_num)]
  norm_num [partitionY, isLeft, closestUtil_base, closestPairBruteForce, bruteOuter,
    bruteInner, buildStrip, stripClosest, stripOuter, stripInner, d5, d6, hm3, hm4, hq, hq2]

/-- Eight points, already in x order, of which `(100,50)` and `(100,3)` share their
x-coordinate: the stable sort keeps `(100,50)` as the median, the partition loop
sends `(100,3)` to the left and, the left side being full, `(0,18)` to the right;
the pair `(0,17)`, `(0,18)` at distance 1 is never compared. -/
theorem closest_stable_eight :
    closest stableQsort [⟨-8, 2⟩, ⟨0, 17⟩, ⟨0, 18⟩, ⟨0, 8⟩, ⟨100, 50⟩, ⟨100, 3⟩, ⟨200, 60⟩, ⟨203, 64⟩] 8 = some 5 := by
  have hX : stableQsort compareX [⟨-8, 2⟩, ⟨0, 17⟩, ⟨0, 18⟩, ⟨0, 8⟩, ⟨100, 50⟩, ⟨100, 3⟩, ⟨200, 60⟩, ⟨203, 64⟩] = [⟨-8, 2⟩, ⟨0, 17⟩, ⟨0, 18⟩, ⟨0, 8⟩, ⟨100, 50⟩, ⟨100, 3⟩, ⟨200, 60⟩, ⟨203, 64⟩] := by
    norm_num [stableQsort, compareX_le_zero_iff, List.insertionSort, List.orderedInsert]
  have hY : stableQsort compareY [⟨-8, 2⟩, ⟨0, 17⟩, ⟨0, 18⟩, ⟨0, 8⟩, ⟨100, 50⟩, ⟨100, 3⟩, ⟨200, 60⟩, ⟨203, 64⟩]
      = [⟨-8, 2⟩, ⟨100, 3⟩, ⟨0, 8⟩, ⟨0, 17⟩, ⟨0, 18⟩, ⟨100, 50⟩, ⟨200, 60⟩, ⟨203, 64⟩] := by
    norm_num [stableQsort, compareY_le_zero_iff, List.insertionSort, List.orderedInsert]
  have d1 : dist ⟨-8, 2⟩ ⟨0, 17⟩ = 17 := dist_eq_of_sq (by norm_num) (by norm_num)
  have d2 : dist ⟨0, 18⟩ ⟨0, 8⟩ = 10 := dist_eq_of_sq (by norm_num) (by norm_num)
  have d3 : dist ⟨-8, 2⟩ ⟨0, 8⟩ = 10 := dist_eq_of_sq (by norm_num) (by norm_num)
  have d4 : dist ⟨0, 8⟩ ⟨0, 17⟩ = 9 := dist_eq_of_sq (by norm_num) (by norm_num)
  have hm1 : (17 : ℝ) < DBL_MAX := small_lt_DBL_MAX (by norm_num)
  have hm2 : (10 : ℝ) < DBL_MAX := small_lt_DBL_MAX (by norm_num)
  have hL : closestUtil [⟨-8, 2⟩, ⟨0, 17⟩, ⟨0, 18⟩, ⟨0, 8⟩, ⟨100, 50⟩, ⟨100, 3⟩, ⟨200, 60⟩, ⟨203, 64⟩] [⟨-8, 2⟩, ⟨100, 3⟩, ⟨0, 8⟩, ⟨0, 17⟩] 4 = some 9 := by
    rw [closestUtil_rec _ _ _ (by norm_num)]
    norm_num [partitionY, isLeft, closestUtil_base, closestPairBruteForce, bruteOuter,
      bruteInner, buildStrip, stripClosest, stripOuter, stripInner, d1, d2, d3, d4, hm1, hm2]
  have hR := closestUtil_right_half ⟨0, 18⟩ (by norm_num) (by norm_num)
  unfold closest
  simp only [List.take, hX, hY]
  rw [closestUtil_rec _ _ _ (by norm_num)]
  norm_num [partitionY, isLeft, hL, hR, buildStrip, stripClosest, stripOuter, stripInner]

/-- The same eight points with `(100,3)` ahead of `(100,50)` in the input: now
`(100,3)` is the median, the partition matches the X split, and the pair at
distance 1 is found. -/
theorem closest_stable_eight_swapped :
    closest stableQsort [⟨-8, 2⟩, ⟨0, 17⟩, ⟨0, 18⟩, ⟨0, 8⟩, ⟨100, 3⟩, ⟨100, 50⟩, ⟨200, 60⟩, ⟨203, 64⟩] 8 = some 1 := by
  have hX : stableQsort compareX [⟨-8, 2⟩, ⟨0, 17⟩, ⟨0, 18⟩, ⟨0, 8⟩, ⟨100, 3⟩, ⟨100, 50⟩, ⟨200, 60⟩, ⟨203, 64⟩] = [⟨-8, 2⟩, ⟨0, 17⟩, ⟨0, 18⟩, ⟨0, 8⟩, ⟨100, 3⟩, ⟨100, 50⟩, ⟨200, 60⟩, ⟨203, 64⟩] := by
    norm_num [stableQsort, compareX_le_zero_iff, List.insertionSort, List.orderedInsert]
  have hY : stableQsort compareY [⟨-8, 2⟩, ⟨0, 17⟩, ⟨0, 18⟩, ⟨0, 8⟩, ⟨100, 3⟩, ⟨100, 50⟩, ⟨200, 60⟩, ⟨203, 64⟩]
      = [⟨-8, 2⟩, ⟨100, 3⟩, ⟨0, 8⟩, ⟨0, 17⟩, ⟨0, 18⟩, ⟨100, 50⟩, ⟨200, 60⟩, ⟨203, 64⟩] := by
    norm_num [stableQsort, compareY_le_zero_iff, List.insertionSort, List.orderedInsert]
  have d1 : dist ⟨-8, 2⟩ ⟨0, 17⟩ = 17 := dist_eq_of_sq (by norm_num) (by norm_num)
  have d2 : dist ⟨0, 18⟩ ⟨0, 8⟩ = 10 := dist_eq_of_sq (by norm_num) (by norm_num)
  have d3 : dist ⟨-8, 2⟩ ⟨0, 8⟩ = 10 := dist_eq_of_sq (by norm_num) (by norm_num)
  have d4 : dist ⟨0, 8⟩ ⟨0, 17⟩ = 9 := dist_eq_of_sq (by norm_num) (by norm_num)
  have d7 : dist ⟨0, 17⟩ ⟨0, 18⟩ = 1 := dist_eq_of_sq (by norm_num) (by norm_num)
  have d5 : dist ⟨100, 3⟩ ⟨100, 50⟩ = 47 := dist_eq_of_sq (by norm_num) (by norm_num)
  have d6 : dist ⟨200, 60⟩ ⟨203, 64⟩ = 5 := dist_eq_of_sq (by norm_num) (by norm_num)
  have hm1 : (17 : ℝ) < DBL_MAX := small_lt_DBL_MAX (by norm_num)
  have hm2 : (10 : ℝ) < DBL_MAX := small_lt_DBL_MAX (by norm_num)
  have hm3 : (47 : ℝ) < DBL_MAX := small_lt_DBL_MAX (by norm_num)
  have hm4 : (5 : ℝ) < DBL_MAX := small_lt_DBL_MAX (by norm_num)
  have hL : closestUtil [⟨-8, 2⟩, ⟨0, 17⟩, ⟨0, 18⟩, ⟨0, 8⟩, ⟨100, 3⟩, ⟨100, 50⟩, ⟨200, 60⟩, ⟨203, 64⟩] [⟨-8, 2⟩, ⟨0, 8⟩, ⟨0, 17⟩, ⟨0, 18⟩] 4 = some 1 := by
    rw [closestUtil_rec _ _ _ (by norm_num)]
    norm_num [partitionY, isLeft, closestUtil_base, closestPairBruteForce, bruteOuter,
      bruteInner, buildStrip, stripClosest, stripOuter, stripInner, d1, d2, d3, d4, d7,
      hm1, hm2]
  have hR : closestUtil [⟨100, 3⟩, ⟨100, 50⟩, ⟨200, 60⟩, ⟨203, 64⟩]
      [⟨100, 3⟩, ⟨100, 50⟩, ⟨200, 60⟩, ⟨203, 64⟩] 4 = some 5 := by
    rw [closestUtil_rec _ _ _ (by norm_num)]
    norm_num [partitionY, isLeft, closestUtil_base, closestPairBruteForce, bruteOuter,
      bruteInner, buildStrip, stripClosest, stripOuter, stripInner, d5, d6, hm3, hm4]
  unfold closest
  simp only [List.take, hX, hY]
  rw [closestUtil_rec _ _ _ (by norm_num)]
  norm_num [partitionY, isLeft, hL, hR, buildStrip, stripClosest, stripOuter, stripInner]

theorem closestPairBruteForce_eight :
    closestPairBruteForce [⟨-8, 2⟩, ⟨0, 17⟩, ⟨0, 18⟩, ⟨0, 8⟩, ⟨100, 50⟩, ⟨100, 3⟩, ⟨200, 60⟩, ⟨203, 64⟩] 8 = 1 := by
  have h : MinOver [⟨-8, 2⟩, ⟨0, 17⟩, ⟨0, 18⟩, ⟨0, 8⟩, ⟨100, 50⟩, ⟨100, 3⟩, ⟨200, 60⟩, ⟨203, 64⟩] DBL_MAX 1 := by
    refine ⟨le_of_lt (small_lt_DBL_MAX (by norm_num)), ?_,
      Or.inr ⟨⟨0, 17⟩, ⟨0, 18⟩, by simp, (dist_eq_of_sq (by norm_num) (by norm_num)).symm⟩⟩
    simp only [List.pairwise_cons, List.mem_cons, forall_eq_or_imp, List.mem_singleton,
      forall_eq, List.not_mem_nil, List.Pairwise.nil, and_true]
    split_ands <;>
      first
      | (intro _ hf; exact hf.elim)
      | (apply le_dist_of_sq; norm_num)
  exact MinOver.unique (bruteOuter_spec _ _) h

/-- A list in x order whose entries are told apart by their x-coordinate has one
x-ordered rearrangement only. -/
theorem sorted_perm_unique (f : Point → ℝ) {l l' : List Point}
    (hl : l.Pairwise (fun a b => f a ≤ f b))
    (hinj : ∀ a ∈ l, ∀ b ∈ l, f a = f b → a = b)
    (hp : l'.Perm l) (hl' : l'.Pairwise (fun a b => f a ≤ f b)) : l' = l := by
  induction l generalizing l' with
  | nil => exact hp.eq_nil
  | cons a t ih =>
    match l', hp, hl' with
    | [], hp, _ => exact absurd hp.symm.eq_nil (by simp)
    | a' :: t', hp, hl' =>
      rw [List.pairwise_cons] at hl hl'
      have ha' : a' ∈ a :: t := hp.subset (List.mem_cons_self _ _)
      have ha : a ∈ a' :: t' := hp.symm.subset (List.mem_cons_self _ _)
      have heq : a' = a := by
        rcases List.mem_cons.mp ha' with h | h
        · exact h
        · rcases List.mem_cons.mp ha with h2 | h2
          · exact h2.symm
          · exact hinj a' ha' a (List.mem_cons_self _ _)
              (le_antisymm (hl'.1 a h2) (hl.1 a' h))
      subst heq
      rw [ih hl.2 (fun x hx y hy => hinj x (List.mem_cons_of_mem _ hx) y
        (List.mem_cons_of_mem _ hy)) (List.Perm.cons_inv hp) hl'.2]

/-- What every conforming `qsort` makes of the four points `(0,0),(1,1),(1,1),(2,2)`:
both views are the input itself. -/
theorem qsort_four_with_duplicate
    (qsort : (Point → Point → ℤ) → List Point → List Point) (hq : QsortSpec qsort) :
    qsort compareX [⟨0, 0⟩, ⟨1, 1⟩, ⟨1, 1⟩, ⟨2, 2⟩] = [⟨0, 0⟩, ⟨1, 1⟩, ⟨1, 1⟩, ⟨2, 2⟩] ∧
    qsort compareY [⟨0, 0⟩, ⟨1, 1⟩, ⟨1, 1⟩, ⟨2, 2⟩] = [⟨0, 0⟩, ⟨1, 1⟩, ⟨1, 1⟩, ⟨2, 2⟩] := by
  obtain ⟨hXp, hXs, hYp, hYs⟩ := hq [⟨0, 0⟩, ⟨1, 1⟩, ⟨1, 1⟩, ⟨2, 2⟩]
  simp only [compareX_le_zero_iff] at hXs
  simp only [compareY_le_zero_iff] at hYs
  constructor
  · refine sorted_perm_unique (fun a => a.x) ?_ ?_ hXp hXs
    · norm_num
    · simp only [List.mem_cons, List.mem_singleton, List.not_mem_nil, or_false]
      rintro a (rfl | rfl | rfl | rfl) b (rfl | rfl | rfl | rfl) <;> norm_num
  · refine sorted_perm_unique (fun a => a.y) ?_ ?_ hYp hYs
    · norm_num
    · simp only [List.mem_cons, List.mem_singleton, List.not_mem_nil, or_false]
      rintro a (rfl | rfl | rfl | rfl) b (rfl | rfl | rfl | rfl) <;> norm_num

/-! ## Claims about `closest` on inputs with equal x-coordinates -/

/-- Claim C1, evaluated at a failing input: on eight points given in x order, two of
which share the x-coordinate of the median, `closest` (with the stable sort) returns
5 while `closestPairBruteForce` returns 1, the distance of `(0,17)` and `(0,18)`. -/
theorem closest_ne_bruteForce_with_x_tie :
    closest stableQsort [⟨-8, 2⟩, ⟨0, 17⟩, ⟨0, 18⟩, ⟨0, 8⟩, ⟨100, 50⟩, ⟨100, 3⟩, ⟨200, 60⟩, ⟨203, 64⟩] 8 = some 5 ∧
    closestPairBruteForce [⟨-8, 2⟩, ⟨0, 17⟩, ⟨0, 18⟩, ⟨0, 8⟩, ⟨100, 50⟩, ⟨100, 3⟩, ⟨200, 60⟩, ⟨203, 64⟩] 8 = 1 :=
  ⟨closest_stable_eight, closestPairBruteForce_eight⟩

/-- Claim C2, evaluated at a failing input: the eight points hold `(0,17)` twice, the
brute-force result is 0, and `closest` (with the stable sort) returns 5: the
partition loop sends one copy to each side although both lie in the left half of
the X view, so the two copies never meet in a strip. -/
theorem closest_misses_duplicate :
    closest stableQsort [⟨-8, 2⟩, ⟨0, 17⟩, ⟨0, 17⟩, ⟨0, 8⟩, ⟨100, 50⟩, ⟨100, 3⟩, ⟨200, 60⟩, ⟨203, 64⟩] 8 = some 5 ∧
    closestPairBruteForce [⟨-8, 2⟩, ⟨0, 17⟩, ⟨0, 17⟩, ⟨0, 8⟩, ⟨100, 50⟩, ⟨100, 3⟩, ⟨200, 60⟩, ⟨203, 64⟩] 8 = 0 := by
  constructor
  · have hX : stableQsort compareX [⟨-8, 2⟩, ⟨0, 17⟩, ⟨0, 17⟩, ⟨0, 8⟩, ⟨100, 50⟩, ⟨100, 3⟩, ⟨200, 60⟩, ⟨203, 64⟩] = [⟨-8, 2⟩, ⟨0, 17⟩, ⟨0, 17⟩, ⟨0, 8⟩, ⟨100, 50⟩, ⟨100, 3⟩, ⟨200, 60⟩, ⟨203, 64⟩] := by
      norm_num [stableQsort, compareX_le_zero_iff, List.insertionSort, List.orderedInsert]
    have hY : stableQsort compareY [⟨-8, 2⟩, ⟨0, 17⟩, ⟨0, 17⟩, ⟨0, 8⟩, ⟨100, 50⟩, ⟨100, 3⟩, ⟨200, 60⟩, ⟨203, 64⟩]
        = [⟨-8, 2⟩, ⟨100, 3⟩, ⟨0, 8⟩, ⟨0, 17⟩, ⟨0, 17⟩, ⟨100, 50⟩, ⟨200, 60⟩, ⟨203, 64⟩] := by
      norm_num [stableQsort, compareY_le_zero_iff, List.insertionSort, List.orderedInsert]
    have d1 : dist ⟨-8, 2⟩ ⟨0, 17⟩ = 17 := dist_eq_of_sq (by norm_num) (by norm_num)
    have d2 : dist ⟨0, 17⟩ ⟨0, 8⟩ = 9 := dist_eq_of_sq (by norm_num) (by norm_num)
    have d3 : dist ⟨-8, 2⟩ ⟨0, 8⟩ = 10 := dist_eq_of_sq (by norm_num) (by norm_num)
    have hm1 : (17 : ℝ) < DBL_MAX := small_lt_DBL_MAX (by norm_num)
    have hm2 : (9 : ℝ) < DBL_MAX := small_lt_DBL_MAX (by norm_num)
    have hL : closestUtil [⟨-8, 2⟩, ⟨0, 17⟩, ⟨0, 17⟩, ⟨0, 8⟩, ⟨100, 50⟩, ⟨100, 3⟩, ⟨200, 60⟩, ⟨203, 64⟩] [⟨-8, 2⟩, ⟨100, 3⟩, ⟨0, 8⟩, ⟨0, 17⟩] 4 = some 9 := by
      rw [closestUtil_rec _ _ _ (by norm_num)]
      norm_num [partitionY, isLeft, closestUtil_base, closestPairBruteForce, bruteOuter,
        bruteInner, buildStrip, stripClosest, stripOuter, stripInner, d1, d2, d3, hm1, hm2]
    have hR := closestUtil_right_half ⟨0, 17⟩ (by norm_num) (by norm_num)
    unfold closest
    simp only [List.take, hX, hY]
    rw [closestUtil_rec _ _ _ (by norm_num)]
    norm_num [partitionY, isLeft, hL, hR, buildStrip, stripClosest, stripOuter, stripInner]
  · have h : MinOver [⟨-8, 2⟩, ⟨0, 17⟩, ⟨0, 17⟩, ⟨0, 8⟩, ⟨100, 50⟩, ⟨100, 3⟩, ⟨200, 60⟩, ⟨203, 64⟩] DBL_MAX 0 := by
      refine ⟨le_of_lt DBL_MAX_pos, ?_,
        Or.inr ⟨⟨0, 17⟩, ⟨0, 17⟩, by simp, (dist_eq_of_sq (le_refl _) (by norm_num)).symm⟩⟩
      exact List.pairwise_of_forall (fun a b => dist_nonneg a b)
    exact MinOver.unique (bruteOuter_spec _ _) h

/-- Claim C3, evaluated at a failing input: two orders of the same eight points, which
differ in the order of `(100,50)` and `(100,3)` only, give the results 5 and 1. -/
theorem closest_depends_on_input_order :
    ([⟨-8, 2⟩, ⟨0, 17⟩, ⟨0, 18⟩, ⟨0, 8⟩, ⟨100, 3⟩, ⟨100, 50⟩, ⟨200, 60⟩, ⟨203, 64⟩] : List Point).Perm
      [⟨-8, 2⟩, ⟨0, 17⟩, ⟨0, 18⟩, ⟨0, 8⟩, ⟨100, 50⟩, ⟨100, 3⟩, ⟨200, 60⟩, ⟨203, 64⟩] ∧
    closest stableQsort [⟨-8, 2⟩, ⟨0, 17⟩, ⟨0, 18⟩, ⟨0, 8⟩, ⟨100, 50⟩, ⟨100, 3⟩, ⟨200, 60⟩, ⟨203, 64⟩] 8 = some 5 ∧
    closest stableQsort [⟨-8, 2⟩, ⟨0, 17⟩, ⟨0, 18⟩, ⟨0, 8⟩, ⟨100, 3⟩, ⟨100, 50⟩, ⟨200, 60⟩, ⟨203, 64⟩] 8 = some 1 := by
  refine ⟨?_, closest_stable_eight, closest_stable_eight_swapped⟩
  exact (((List.Perm.swap _ _ _).cons _).cons _ |>.cons _).cons _

/-- Claim C9, evaluated at a failing input: for the four points
`(0,0),(1,1),(1,1),(2,2)` and every conforming `qsort`, the partition loop writes one
point to `pointsYL` and three to `pointsYR`, which has room for two: `closest` has
no result, while `closestPairBruteForce` returns 0. -/
theorem closest_four_points_overflow
    (qsort : (Point → Point → ℤ) → List Point → List Point) (hq : QsortSpec qsort) :
    closest qsort [⟨0, 0⟩, ⟨1, 1⟩, ⟨1, 1⟩, ⟨2, 2⟩] 4 = none ∧
    partitionY ⟨1, 1⟩ 2 [⟨0, 0⟩, ⟨1, 1⟩, ⟨1, 1⟩, ⟨2, 2⟩] ([], [])
      = ([⟨0, 0⟩], [⟨1, 1⟩, ⟨1, 1⟩, ⟨2, 2⟩]) ∧
    closestPairBruteForce [⟨0, 0⟩, ⟨1, 1⟩, ⟨1, 1⟩, ⟨2, 2⟩] 4 = 0 := by
  obtain ⟨hX, hY⟩ := qsort_four_with_duplicate qsort hq
  refine ⟨?_, ?_, ?_⟩
  · unfold closest
    simp only [List.take, hX, hY]
    rw [closestUtil_rec _ _ _ (by norm_num)]
    norm_num [partitionY, isLeft]
  · norm_num [partitionY, isLeft]
  · have h : MinOver [⟨0, 0⟩, ⟨1, 1⟩, ⟨1, 1⟩, ⟨2, 2⟩] DBL_MAX 0 := by
      refine ⟨le_of_lt DBL_MAX_pos, ?_,
        Or.inr ⟨⟨1, 1⟩, ⟨1, 1⟩, by simp, (dist_eq_of_sq (le_refl _) (by norm_num)).symm⟩⟩
      exact List.pairwise_of_forall (fun a b => dist_nonneg a b)
    exact MinOver.unique (bruteOuter_spec _ _) h

/-- Claim C9 at the failing input, with the stable sort. -/
theorem closest_four_points_overflow_witness :
    closest stableQsort [⟨0, 0⟩, ⟨1, 1⟩, ⟨1, 1⟩, ⟨2, 2⟩] 4 = none ∧
    partitionY ⟨1, 1⟩ 2 [⟨0, 0⟩, ⟨1, 1⟩, ⟨1, 1⟩, ⟨2, 2⟩] ([], [])
      = ([⟨0, 0⟩], [⟨1, 1⟩, ⟨1, 1⟩, ⟨2, 2⟩]) ∧
    closestPairBruteForce [⟨0, 0⟩, ⟨1, 1⟩, ⟨1, 1⟩, ⟨2, 2⟩] 4 = 0 :=
  closest_four_points_overflow stableQsort stableQsort_spec

/-! ## Inputs with pairwise distinct x-coordinates -/

/-- With pairwise distinct x-coordinates `closest` returns the brute-force value,
whatever conforming `qsort` is used. -/
theorem closest_of_distinct_x
    (qsort : (Point → Point → ℤ) → List Point → List Point) (hq : QsortSpec qsort)
    (points : List Point) (n : ℕ) (hn : points.length = n)
    (hx : points.Pairwise (fun a b => a.x ≠ b.x)) :
    closest qsort points n = some (closestPairBruteForce points n) := by
  obtain ⟨hXp, hXs, hYp, hYs⟩ := hq points
  have hXlen : (qsort compareX points).length = n := by rw [hXp.length_eq, hn]
  have hne : (qsort compareX points).Pairwise (fun a b => a.x ≠ b.x) :=
    (List.Perm.pairwise_iff (fun h => Ne.symm h) hXp.symm).mp hx
  have hstrict : (qsort compareX points).Pairwise (fun a b => a.x < b.x) := by
    refine (hXs.and hne).imp ?_
    intro a b h
    exact lt_of_le_of_ne ((compareX_le_zero_iff a b).mp h.1) h.2
  have htake : (qsort compareX points).take n = qsort compareX points := by
    rw [← hXlen, List.take_length]
  unfold closest
  rw [← hn, List.take_length, hn]
  rw [closestUtil_eq_bruteOuter n _ _ (le_of_eq hXlen.symm) (by rw [htake]; exact hstrict)
    (by rw [htake]; exact hYp.trans hXp.symm)
    (hYs.imp (fun h => (compareY_le_zero_iff _ _).mp h))]
  rw [htake]
  unfold closestPairBruteForce
  rw [← hn, List.take_length, bruteOuter_perm hXp]

/-! ## The comparators -/

theorem compareX_lt_zero_iff (a b : Point) : compareX a b < 0 ↔ a.x < b.x := by
  unfold compareX
  rcases lt_trichotomy a.x b.x with h | h | h
  · simp [h, not_lt_of_lt h]
  · simp [h]
  · simp [h, not_lt_of_lt h]

theorem compareX_eq_zero_iff (a b : Point) : compareX a b = 0 ↔ a.x = b.x := by
  unfold compareX
  rcases lt_trichotomy a.x b.x with h | h | h
  · simp [h, not_lt_of_lt h, ne_of_lt h]
  · simp [h]
  · simp [h, not_lt_of_lt h, ne_of_gt h]

theorem compareY_lt_zero_iff (a b : Point) : compareY a b < 0 ↔ a.y < b.y := by
  unfold compareY
  rcases lt_trichotomy a.y b.y with h | h | h
  · simp [h, not_lt_of_lt h]
  · simp [h]
  · simp [h, not_lt_of_lt h]

theorem compareY_eq_zero_iff (a b : Point) : compareY a b = 0 ↔ a.y = b.y := by
  unfold compareY
  rcases lt_trichotomy a.y b.y with h | h | h
  · simp [h, not_lt_of_lt h, ne_of_lt h]
  · simp [h]
  · simp [h, not_lt_of_lt h, ne_of_gt h]

theorem compareX_values (a b : Point) :
    (compareX a b = -1 ∨ compareX a b = 0 ∨ compareX a b = 1) ∧
      compareX a b = -compareX b a := by
  unfold compareX
  rcases lt_trichotomy a.x b.x with h | h | h
  · simp [h, not_lt_of_lt h]
  · simp [h]
  · simp [h, not_lt_of_lt h]

theorem compareY_values (a b : Point) :
    (compareY a b = -1 ∨ compareY a b = 0 ∨ compareY a b = 1) ∧
      compareY a b = -compareY b a := by
  unfold compareY
  rcases lt_trichotomy a.y b.y with h | h | h
  · simp [h, not_lt_of_lt h]
  · simp [h]
  · simp [h, not_lt_of_lt h]

/-- Claim C11, evaluated at a failing input: `compareX` returns 0 for `(0,0)` and
`(0,1)`, which differ in `y`, and `compareY` returns 0 for `(0,0)` and `(1,0)`, which
differ in `x`: neither comparator breaks ties on the other coordinate. -/
theorem comparators_without_tie_break :
    compareX ⟨0, 0⟩ ⟨0, 1⟩ = 0 ∧ compareX ⟨0, 1⟩ ⟨0, 0⟩ = 0 ∧
    compareY ⟨0, 0⟩ ⟨1, 0⟩ = 0 ∧ compareY ⟨1, 0⟩ ⟨0, 0⟩ = 0 ∧
    (⟨0, 0⟩ : Point) ≠ ⟨0, 1⟩ ∧ (⟨0, 0⟩ : Point) ≠ ⟨1, 0⟩ := by
  refine ⟨?_, ?_, ?_, ?_, ?_, ?_⟩
  · exact (compareX_eq_zero_iff _ _).mpr rfl
  · exact (compareX_eq_zero_iff _ _).mpr rfl
  · exact (compareY_eq_zero_iff _ _).mpr rfl
  · exact (compareY_eq_zero_iff _ _).mpr rfl
  · intro h
    have := congrArg Point.y h
    norm_num at this
  · intro h
    have := congrArg Point.x h
    norm_num at this

/-- Claim C20: `compareX` and `compareY` are consistent three-way comparisons: the
result is -1, 0 or 1, `compare a b = -compare b a`, `compare a a = 0`, and both
`compare < 0` and `compare = 0` are transitive. -/
theorem comparators_three_way (a b c : Point) :
    ((compareX a b = -1 ∨ compareX a b = 0 ∨ compareX a b = 1) ∧
      compareX a b = -compareX b a ∧
      compareX a a = 0 ∧
      (compareX a b < 0 → compareX b c < 0 → compareX a c < 0) ∧
      (compareX a b = 0 → compareX b c = 0 → compareX a c = 0)) ∧
    ((compareY a b = -1 ∨ compareY a b = 0 ∨ compareY a b = 1) ∧
      compareY a b = -compareY b a ∧
      compareY a a = 0 ∧
      (compareY a b < 0 → compareY b c < 0 → compareY a c < 0) ∧
      (compareY a b = 0 → compareY b c = 0 → compareY a c = 0)) := by
  refine ⟨⟨(compareX_values a b).1, (compareX_values a b).2,
      (compareX_eq_zero_iff a a).mpr rfl, ?_, ?_⟩,
    ⟨(compareY_values a b).1, (compareY_values a b).2,
      (compareY_eq_zero_iff a a).mpr rfl, ?_, ?_⟩⟩
  · simp only [compareX_lt_zero_iff]
    exact fun h1 h2 => lt_trans h1 h2
  · simp only [compareX_eq_zero_iff]
    exact fun h1 h2 => h1.trans h2
  · simp only [compareY_lt_zero_iff]
    exact fun h1 h2 => lt_trans h1 h2
  · simp only [compareY_eq_zero_iff]
    exact fun h1 h2 => h1.trans h2

/-! ## Fewer than two points, and the sizes of the recursion -/

/-- Claim C19: for `n < 2` the loops of `closestPairBruteForce` find no pair: whatever
the running minimum starts with is what they end with, so the function returns the
untouched initial value `DBL_MAX`; and so does `closest` (for `n = 1` and `n = 0`,
with any `qsort`). -/
theorem no_loop_body_below_two_points
    (qsort : (Point → Point → ℤ) → List Point → List Point)
    (points : List Point) (n : ℕ) (hn : n < 2) :
    (∀ m : ℝ, bruteOuter (points.take n) m = m) ∧
    (∀ (p : Point) (m : ℝ), bruteInner p ((points.take n).drop 1) m = m) ∧
    closestPairBruteForce points n = DBL_MAX ∧
    closest qsort points n = some DBL_MAX := by
  have hlen : ∀ l : List Point, (l.take n).length < 2 := by
    intro l
    have := List.length_take_le n l
    omega
  refine ⟨fun m => bruteOuter_short _ m (hlen points), ?_, bruteOuter_short _ _ (hlen points), ?_⟩
  · intro p m
    have h0 : ((points.take n).drop 1).length = 0 := by
      rw [List.length_drop]
      have := hlen points
      omega
    rw [List.length_eq_zero.mp h0]
    rfl
  · unfold closest
    rw [closestUtil_base _ _ _ (by omega)]
    exact congrArg some (bruteOuter_short _ _ (hlen _))

/-- Claim C19 for the single point `(4,5)`. -/
theorem no_loop_body_below_two_points_witness :
    (∀ m : ℝ, bruteOuter (([⟨4, 5⟩] : List Point).take 1) m = m) ∧
    (∀ (p : Point) (m : ℝ), bruteInner p ((([⟨4, 5⟩] : List Point).take 1).drop 1) m = m) ∧
    closestPairBruteForce [⟨4, 5⟩] 1 = DBL_MAX ∧
    closest stableQsort [⟨4, 5⟩] 1 = some DBL_MAX :=
  no_loop_body_below_two_points stableQsort [⟨4, 5⟩] 1 (by decide)

theorem closestUtilTraced_fst (n : ℕ) :
    ∀ pointsX pointsY : List Point,
      (closestUtilTraced pointsX pointsY n).1 = closestUtil pointsX pointsY n := by
  induction n using Nat.strong_induction_on with
  | _ n ih =>
    intro pointsX pointsY
    by_cases h : n ≤ 3
    · rw [closestUtilTraced, closestUtil, dif_pos h, dif_pos h]
    · rw [closestUtilTraced, closestUtil, dif_neg h, dif_neg h]
      simp only []
      split_ifs
      · rfl
      · rw [ih (n / 2) (by omega), ih (n - n / 2) (by omega)]

theorem closestUtilTraced_sizes (n : ℕ) (hn : 2 ≤ n) :
    ∀ pointsX pointsY : List Point,
      ∀ s ∈ (closestUtilTraced pointsX pointsY n).2, s = 2 ∨ s = 3 := by
  induction n using Nat.strong_induction_on with
  | _ n ih =>
    intro pointsX pointsY s hs
    by_cases h : n ≤ 3
    · rw [closestUtilTraced, dif_pos h] at hs
      simp only [List.mem_singleton] at hs
      omega
    · rw [closestUtilTraced, dif_neg h] at hs
      simp only [] at hs
      split_ifs at hs
      · simp at hs
      · rcases List.mem_append.mp hs with h1 | h1
        · exact ih (n / 2) (by omega) (by omega) _ _ s h1
        · exact ih (n - n / 2) (by omega) (by omega) _ _ s h1

theorem baseCaseSizes_two_or_three (n : ℕ) (hn : 2 ≤ n) :
    (∀ s ∈ baseCaseSizes n, s = 2 ∨ s = 3) ∧ (baseCaseSizes n).sum = n := by
  induction n using Nat.strong_induction_on with
  | _ n ih =>
    by_cases h : n ≤ 3
    · rw [baseCaseSizes, dif_pos h]
      refine ⟨fun s hs => ?_, by simp⟩
      simp only [List.mem_singleton] at hs
      omega
    · rw [baseCaseSizes, dif_neg h]
      obtain ⟨h1, h1s⟩ := ih (n / 2) (by omega) (by omega)
      obtain ⟨h2, h2s⟩ := ih (n - n / 2) (by omega) (by omega)
      refine ⟨fun s hs => ?_, ?_⟩
      · rcases List.mem_append.mp hs with hs | hs
        · exact h1 s hs
        · exact h2 s hs
      · rw [List.sum_append, h1s, h2s]
        omega

theorem closestUtilTraced_subset (n : ℕ) :
    ∀ pointsX pointsY : List Point,
      ∀ s ∈ (closestUtilTraced pointsX pointsY n).2, s ∈ baseCaseSizes n := by
  induction n using Nat.strong_induction_on with
  | _ n ih =>
    intro pointsX pointsY s hs
    by_cases h : n ≤ 3
    · rw [closestUtilTraced, dif_pos h] at hs
      rw [baseCaseSizes, dif_pos h]
      exact hs
    · rw [closestUtilTraced, dif_neg h] at hs
      rw [baseCaseSizes, dif_neg h]
      simp only [] at hs
      split_ifs at hs
      · simp at hs
      · rcases List.mem_append.mp hs with h1 | h1
        · exact List.mem_append_left _ (ih (n / 2) (by omega) _ _ s h1)
        · exact List.mem_append_right _ (ih (n - n / 2) (by omega) _ _ s h1)

/-- Claim C17: in a call of `closestUtil` with `n > 3` both subproblem sizes
`mid = n / 2` and `n - mid` are at least 2 and below `n` (the measure of the
recursion, which therefore ends); and from a call with `n ≥ 2` every call of
`closestPairBruteForce` gets exactly 2 or 3 points: this holds for the sizes of the
call tree as such (which add up to `n`) and for the calls recorded by the traced
function, which computes the result of `closestUtil`. -/
theorem recursion_sizes (pointsX pointsY : List Point) (n : ℕ) (hn : 2 ≤ n) :
    (3 < n → 2 ≤ n / 2 ∧ n / 2 < n ∧ 2 ≤ n - n / 2 ∧ n - n / 2 < n) ∧
    (∀ s ∈ baseCaseSizes n, s = 2 ∨ s = 3) ∧
    (baseCaseSizes n).sum = n ∧
    (closestUtilTraced pointsX pointsY n).1 = closestUtil pointsX pointsY n ∧
    (∀ s ∈ (closestUtilTraced pointsX pointsY n).2, s ∈ baseCaseSizes n) ∧
    (∀ s ∈ (closestUtilTraced pointsX pointsY n).2, s = 2 ∨ s = 3) :=
  ⟨fun h => by omega, (baseCaseSizes_two_or_three n hn).1, (baseCaseSizes_two_or_three n hn).2,
    closestUtilTraced_fst n pointsX pointsY, closestUtilTraced_subset n pointsX pointsY,
    closestUtilTraced_sizes n hn pointsX pointsY⟩

/-- Claim C17 for five points with distinct x-coordinates. -/
theorem recursion_sizes_witness :
    (3 < 5 → 2 ≤ 5 / 2 ∧ 5 / 2 < 5 ∧ 2 ≤ 5 - 5 / 2 ∧ 5 - 5 / 2 < 5) ∧
    (∀ s ∈ baseCaseSizes 5, s = 2 ∨ s = 3) ∧
    (baseCaseSizes 5).sum = 5 ∧
    (closestUtilTraced [⟨0, 0⟩, ⟨1, 5⟩, ⟨2, 1⟩, ⟨3, 7⟩, ⟨4, 2⟩]
        [⟨0, 0⟩, ⟨2, 1⟩, ⟨4, 2⟩, ⟨1, 5⟩, ⟨3, 7⟩] 5).1
      = closestUtil [⟨0, 0⟩, ⟨1, 5⟩, ⟨2, 1⟩, ⟨3, 7⟩, ⟨4, 2⟩]
        [⟨0, 0⟩, ⟨2, 1⟩, ⟨4, 2⟩, ⟨1, 5⟩, ⟨3, 7⟩] 5 ∧
    (∀ s ∈ (closestUtilTraced [⟨0, 0⟩, ⟨1, 5⟩, ⟨2, 1⟩, ⟨3, 7⟩, ⟨4, 2⟩]
        [⟨0, 0⟩, ⟨2, 1⟩, ⟨4, 2⟩, ⟨1, 5⟩, ⟨3, 7⟩] 5).2, s ∈ baseCaseSizes 5) ∧
    (∀ s ∈ (closestUtilTraced [⟨0, 0⟩, ⟨1, 5⟩, ⟨2, 1⟩, ⟨3, 7⟩, ⟨4, 2⟩]
        [⟨0, 0⟩, ⟨2, 1⟩, ⟨4, 2⟩, ⟨1, 5⟩, ⟨3, 7⟩] 5).2, s = 2 ∨ s = 3) :=
  recursion_sizes _ _ 5 (by decide)

/-! ## The two loops of `closestUtil` -/

theorem stripLoop_eq (midPoint : Point) (d : ℝ) (l strip : List Point) :
    stripLoop midPoint d l strip = strip ++ buildStrip midPoint d l := by
  induction l generalizing strip with
  | nil => simp [stripLoop, buildStrip]
  | cons p rest ih =>
    unfold buildStrip at ih ⊢
    by_cases h : |p.x - midPoint.x| < d
    · rw [stripLoop, if_pos h, ih]
      simp [List.filter_cons, h]
    · rw [stripLoop, if_neg h, ih]
      simp [List.filter_cons, h]

/-- Claim C18: the strip built by `closestUtil` from the first `n` entries of
`pointsY` (here for every `n`, bound `d` and `midPoint`) is the subsequence of the
entries with `|x - midPoint.x| < d`, in the same order: an entry is in the strip
exactly when it passes the strict test, entries at horizontal distance exactly `d`
are left out, the order of `pointsY` is kept (so the strip is in non-decreasing y
order when `pointsY` is), and its size is at most `n`. -/
theorem strip_construction (midPoint : Point) (d : ℝ) (pointsY : List Point) (n : ℕ)
    (hlen : n ≤ pointsY.length) :
    stripLoop midPoint d (pointsY.take n) [] = buildStrip midPoint d (pointsY.take n) ∧
    stripLoop midPoint d (pointsY.take n) []
      = (pointsY.take n).filter (fun p => decide (|p.x - midPoint.x| < d)) ∧
    List.Sublist (stripLoop midPoint d (pointsY.take n) []) (pointsY.take n) ∧
    (∀ p, p ∈ stripLoop midPoint d (pointsY.take n) []
      ↔ p ∈ pointsY.take n ∧ |p.x - midPoint.x| < d) ∧
    (∀ p, |p.x - midPoint.x| = d → p ∉ stripLoop midPoint d (pointsY.take n) []) ∧
    ((pointsY.take n).Pairwise (fun a b => a.y ≤ b.y) →
      (stripLoop midPoint d (pointsY.take n) []).Pairwise (fun a b => a.y ≤ b.y)) ∧
    (stripLoop midPoint d (pointsY.take n) []).length ≤ n := by
  have he : stripLoop midPoint d (pointsY.take n) [] = buildStrip midPoint d (pointsY.take n) := by
    rw [stripLoop_eq, List.nil_append]
  have hsub : List.Sublist (buildStrip midPoint d (pointsY.take n)) (pointsY.take n) :=
    List.filter_sublist _
  have hmem : ∀ p, p ∈ buildStrip midPoint d (pointsY.take n)
      ↔ p ∈ pointsY.take n ∧ |p.x - midPoint.x| < d := by
    intro p
    unfold buildStrip
    rw [List.mem_filter, decide_eq_true_eq]
  rw [he]
  refine ⟨rfl, rfl, hsub, hmem, ?_, fun h => h.sublist hsub, ?_⟩
  · intro p hp hin
    have := ((hmem p).mp hin).2
    rw [hp] at this
    exact lt_irrefl _ this
  · have h1 := hsub.length_le
    rw [List.length_take, Nat.min_eq_left hlen] at h1
    exact h1

/-- Claim C18 for a Y view of five points, median `(2,1)` and bound 2: `(0,0)` and
`(4,2)`, at horizontal distance exactly 2, are left out. -/
theorem strip_construction_witness :
    stripLoop ⟨2, 1⟩ 2 (([⟨0, 0⟩, ⟨2, 1⟩, ⟨4, 2⟩, ⟨1, 5⟩, ⟨3, 7⟩] : List Point).take 5) []
      = buildStrip ⟨2, 1⟩ 2 (([⟨0, 0⟩, ⟨2, 1⟩, ⟨4, 2⟩, ⟨1, 5⟩, ⟨3, 7⟩] : List Point).take 5) ∧
    stripLoop ⟨2, 1⟩ 2 (([⟨0, 0⟩, ⟨2, 1⟩, ⟨4, 2⟩, ⟨1, 5⟩, ⟨3, 7⟩] : List Point).take 5) []
      = (([⟨0, 0⟩, ⟨2, 1⟩, ⟨4, 2⟩, ⟨1, 5⟩, ⟨3, 7⟩] : List Point).take 5).filter
          (fun p => decide (|p.x - (⟨2, 1⟩ : Point).x| < 2)) ∧
    List.Sublist
      (stripLoop ⟨2, 1⟩ 2 (([⟨0, 0⟩, ⟨2, 1⟩, ⟨4, 2⟩, ⟨1, 5⟩, ⟨3, 7⟩] : List Point).take 5) [])
      (([⟨0, 0⟩, ⟨2, 1⟩, ⟨4, 2⟩, ⟨1, 5⟩, ⟨3, 7⟩] : List Point).take 5) ∧
    (∀ p, p ∈ stripLoop ⟨2, 1⟩ 2
        (([⟨0, 0⟩, ⟨2, 1⟩, ⟨4, 2⟩, ⟨1, 5⟩, ⟨3, 7⟩] : List Point).take 5) []
      ↔ p ∈ ([⟨0, 0⟩, ⟨2, 1⟩, ⟨4, 2⟩, ⟨1, 5⟩, ⟨3, 7⟩] : List Point).take 5
        ∧ |p.x - (⟨2, 1⟩ : Point).x| < 2) ∧
    (∀ p, |p.x - (⟨2, 1⟩ : Point).x| = 2 → p ∉ stripLoop ⟨2, 1⟩ 2
        (([⟨0, 0⟩, ⟨2, 1⟩, ⟨4, 2⟩, ⟨1, 5⟩, ⟨3, 7⟩] : List Point).take 5) []) ∧
    ((([⟨0, 0⟩, ⟨2, 1⟩, ⟨4, 2⟩, ⟨1, 5⟩, ⟨3, 7⟩] : List Point).take 5).Pairwise
        (fun a b => a.y ≤ b.y) →
      (stripLoop ⟨2, 1⟩ 2
        (([⟨0, 0⟩, ⟨2, 1⟩, ⟨4, 2⟩, ⟨1, 5⟩, ⟨3, 7⟩] : List Point).take 5) []).Pairwise
        (fun a b => a.y ≤ b.y)) ∧
    (stripLoop ⟨2, 1⟩ 2
      (([⟨0, 0⟩, ⟨2, 1⟩, ⟨4, 2⟩, ⟨1, 5⟩, ⟨3, 7⟩] : List Point).take 5) []).length ≤ 5 :=
  strip_construction ⟨2, 1⟩ 2 [⟨0, 0⟩, ⟨2, 1⟩, ⟨4, 2⟩, ⟨1, 5⟩, ⟨3, 7⟩] 5 (by decide)

/-- The partition loop for any state with room left: what is appended to the two
sides are two subsequences of the scanned entries that together hold each scanned
entry once, and the left side never exceeds `mid`. -/
theorem partitionY_spec (midPoint : Point) (mid : ℕ) (l : List Point)
    (acc : List Point × List Point) (hacc : acc.1.length ≤ mid) :
    ∃ s1 s2, partitionY midPoint mid l acc = (acc.1 ++ s1, acc.2 ++ s2) ∧
      (acc.1 ++ s1).length ≤ mid ∧ (s1 ++ s2).Perm l ∧
      List.Sublist s1 l ∧ List.Sublist s2 l := by
  induction l generalizing acc with
  | nil => exact ⟨[], [], by simp [partitionY], by simpa using hacc, by simp, by simp, by simp⟩
  | cons p rest ih =>
    by_cases hc : isLeft midPoint p ∧ acc.1.length < mid
    · obtain ⟨s1, s2, he, hle, hperm, h1, h2⟩ := ih (acc.1 ++ [p], acc.2) (by
        simp only [List.length_append, List.length_singleton]
        omega)
      refine ⟨p :: s1, s2, ?_, ?_, ?_, h1.cons₂ p, h2.cons p⟩
      · rw [partitionY, if_pos hc, he]
        simp
      · simpa using hle
      · exact List.Perm.cons p hperm
    · obtain ⟨s1, s2, he, hle, hperm, h1, h2⟩ := ih (acc.1, acc.2 ++ [p]) hacc
      refine ⟨s1, p :: s2, ?_, hle, ?_, h1.cons p, h2.cons₂ p⟩
      · rw [partitionY, if_neg hc, he]
        simp
      · exact List.perm_middle.trans (List.Perm.cons p hperm)

/-- Claim C14: the partition loop of `closestUtil` over the first `n` entries of any
`pointsY` (for every `n` and every `midPoint`, with `mid = n / 2`) sends each entry
to exactly one side: `li + ri = n`, `li ≤ mid`, the two sides together hold the
entries of `pointsY[0..n)`, each side is a subsequence of `pointsY[0..n)` (the
relative order is kept), and so each side is in non-decreasing y order when
`pointsY` is. -/
theorem partition_loop_accounts_for_every_entry (midPoint : Point) (pointsY : List Point)
    (n : ℕ) (hlen : n ≤ pointsY.length) :
    (partitionY midPoint (n / 2) (pointsY.take n) ([], [])).1.length
      + (partitionY midPoint (n / 2) (pointsY.take n) ([], [])).2.length = n ∧
    (partitionY midPoint (n / 2) (pointsY.take n) ([], [])).1.length ≤ n / 2 ∧
    ((partitionY midPoint (n / 2) (pointsY.take n) ([], [])).1
      ++ (partitionY midPoint (n / 2) (pointsY.take n) ([], [])).2).Perm (pointsY.take n) ∧
    List.Sublist (partitionY midPoint (n / 2) (pointsY.take n) ([], [])).1 (pointsY.take n) ∧
    List.Sublist (partitionY midPoint (n / 2) (pointsY.take n) ([], [])).2 (pointsY.take n) ∧
    ((pointsY.take n).Pairwise (fun a b => a.y ≤ b.y) →
      (partitionY midPoint (n / 2) (pointsY.take n) ([], [])).1.Pairwise
        (fun a b => a.y ≤ b.y) ∧
      (partitionY midPoint (n / 2) (pointsY.take n) ([], [])).2.Pairwise
        (fun a b => a.y ≤ b.y)) := by
  obtain ⟨s1, s2, he, hle, hperm, h1, h2⟩ :=
    partitionY_spec midPoint (n / 2) (pointsY.take n) ([], []) (Nat.zero_le _)
  rw [he]
  simp only [List.nil_append] at hle ⊢
  refine ⟨?_, hle, hperm, h1, h2, fun h => ⟨h.sublist h1, h.sublist h2⟩⟩
  have := hperm.length_eq
  rw [List.length_append, List.length_take, Nat.min_eq_left hlen] at this
  exact this

/-- Claim C14 for a Y view of four points on a vertical line and the median `(0,1)`. -/
theorem partition_loop_accounts_for_every_entry_witness :
    (partitionY ⟨0, 1⟩ (4 / 2)
        (([⟨0, 0⟩, ⟨0, 1⟩, ⟨0, 2⟩, ⟨0, 3⟩] : List Point).take 4) ([], [])).1.length
      + (partitionY ⟨0, 1⟩ (4 / 2)
        (([⟨0, 0⟩, ⟨0, 1⟩, ⟨0, 2⟩, ⟨0, 3⟩] : List Point).take 4) ([], [])).2.length = 4 ∧
    (partitionY ⟨0, 1⟩ (4 / 2)
        (([⟨0, 0⟩, ⟨0, 1⟩, ⟨0, 2⟩, ⟨0, 3⟩] : List Point).take 4) ([], [])).1.length ≤ 4 / 2 ∧
    ((partitionY ⟨0, 1⟩ (4 / 2)
        (([⟨0, 0⟩, ⟨0, 1⟩, ⟨0, 2⟩, ⟨0, 3⟩] : List Point).take 4) ([], [])).1
      ++ (partitionY ⟨0, 1⟩ (4 / 2)
        (([⟨0, 0⟩, ⟨0, 1⟩, ⟨0, 2⟩, ⟨0, 3⟩] : List Point).take 4) ([], [])).2).Perm
      (([⟨0, 0⟩, ⟨0, 1⟩, ⟨0, 2⟩, ⟨0, 3⟩] : List Point).take 4) ∧
    List.Sublist (partitionY ⟨0, 1⟩ (4 / 2)
        (([⟨0, 0⟩, ⟨0, 1⟩, ⟨0, 2⟩, ⟨0, 3⟩] : List Point).take 4) ([], [])).1
      (([⟨0, 0⟩, ⟨0, 1⟩, ⟨0, 2⟩, ⟨0, 3⟩] : List Point).take 4) ∧
    List.Sublist (partitionY ⟨0, 1⟩ (4 / 2)
        (([⟨0, 0⟩, ⟨0, 1⟩, ⟨0, 2⟩, ⟨0, 3⟩] : List Point).take 4) ([], [])).2
      (([⟨0, 0⟩, ⟨0, 1⟩, ⟨0, 2⟩, ⟨0, 3⟩] : List Point).take 4) ∧
    ((([⟨0, 0⟩, ⟨0, 1⟩, ⟨0, 2⟩, ⟨0, 3⟩] : List Point).take 4).Pairwise
        (fun a b => a.y ≤ b.y) →
      (partitionY ⟨0, 1⟩ (4 / 2)
        (([⟨0, 0⟩, ⟨0, 1⟩, ⟨0, 2⟩, ⟨0, 3⟩] : List Point).take 4) ([], [])).1.Pairwise
        (fun a b => a.y ≤ b.y) ∧
      (partitionY ⟨0, 1⟩ (4 / 2)
        (([⟨0, 0⟩, ⟨0, 1⟩, ⟨0, 2⟩, ⟨0, 3⟩] : List Point).take 4) ([], [])).2.Pairwise
        (fun a b => a.y ≤ b.y)) :=
  partition_loop_accounts_for_every_entry ⟨0, 1⟩ [⟨0, 0⟩, ⟨0, 1⟩, ⟨0, 2⟩, ⟨0, 3⟩] 4
    (by decide)

/-- Claim C12, evaluated at a failing input: the X view `(0,0),(5,9),(5,1),(7,3)` is in
non-decreasing x order (it is what the stable sort makes of itself), the Y view
`(0,0),(5,1),(7,3),(5,9)` is in y order and holds the same points; `midPoint` is
`(5,1)`, only `(0,0)` passes `isLeft`, and the loop ends with `li = 1`, `ri = 3`
where `mid = 2` and `n - mid = 2`: `pointsYR` is written past its capacity and
`closestUtil` has no result. -/
theorem partition_sizes_not_exact :
    ([⟨0, 0⟩, ⟨5, 9⟩, ⟨5, 1⟩, ⟨7, 3⟩] : List Point).Pairwise (fun a b => compareX a b ≤ 0) ∧
    ([⟨0, 0⟩, ⟨5, 1⟩, ⟨7, 3⟩, ⟨5, 9⟩] : List Point).Pairwise (fun a b => compareY a b ≤ 0) ∧
    ([⟨0, 0⟩, ⟨5, 1⟩, ⟨7, 3⟩, ⟨5, 9⟩] : List Point).Perm [⟨0, 0⟩, ⟨5, 9⟩, ⟨5, 1⟩, ⟨7, 3⟩] ∧
    stableQsort compareX [⟨0, 0⟩, ⟨5, 9⟩, ⟨5, 1⟩, ⟨7, 3⟩] = [⟨0, 0⟩, ⟨5, 9⟩, ⟨5, 1⟩, ⟨7, 3⟩] ∧
    stableQsort compareY [⟨0, 0⟩, ⟨5, 9⟩, ⟨5, 1⟩, ⟨7, 3⟩] = [⟨0, 0⟩, ⟨5, 1⟩, ⟨7, 3⟩, ⟨5, 9⟩] ∧
    partitionY (([⟨0, 0⟩, ⟨5, 9⟩, ⟨5, 1⟩, ⟨7, 3⟩] : List Point).getD (4 / 2) default) (4 / 2)
        (([⟨0, 0⟩, ⟨5, 1⟩, ⟨7, 3⟩, ⟨5, 9⟩] : List Point).take 4) ([], [])
      = ([⟨0, 0⟩], [⟨5, 1⟩, ⟨7, 3⟩, ⟨5, 9⟩]) ∧
    closestUtil [⟨0, 0⟩, ⟨5, 9⟩, ⟨5, 1⟩, ⟨7, 3⟩] [⟨0, 0⟩, ⟨5, 1⟩, ⟨7, 3⟩, ⟨5, 9⟩] 4 = none := by
  have hX : stableQsort compareX [⟨0, 0⟩, ⟨5, 9⟩, ⟨5, 1⟩, ⟨7, 3⟩] = [⟨0, 0⟩, ⟨5, 9⟩, ⟨5, 1⟩, ⟨7, 3⟩] := by
    norm_num [stableQsort, compareX_le_zero_iff, List.insertionSort, List.orderedInsert]
  have hY : stableQsort compareY [⟨0, 0⟩, ⟨5, 9⟩, ⟨5, 1⟩, ⟨7, 3⟩] = [⟨0, 0⟩, ⟨5, 1⟩, ⟨7, 3⟩, ⟨5, 9⟩] := by
    norm_num [stableQsort, compareY_le_zero_iff, List.insertionSort, List.orderedInsert]
  have hs := stableQsort_spec [⟨0, 0⟩, ⟨5, 9⟩, ⟨5, 1⟩, ⟨7, 3⟩]
  rw [hX, hY] at hs
  refine ⟨hs.2.1, hs.2.2.2, hs.2.2.1, hX, hY, ?_, ?_⟩
  · norm_num [partitionY, isLeft]
  · rw [closestUtil_rec _ _ _ (by norm_num)]
    norm_num [partitionY, isLeft]

/-- Claim C13, evaluated at a failing input: for the eight points of the X view below
(in non-decreasing x order, with `(100,50)` ahead of `(100,3)`) and their Y view, the
partition loop ends with four points on each side, yet `pointsYL` holds `(100,3)`,
which is `pointsX[5]`, and not `(0,18)`, which is `pointsX[2]`: the sides are not
the two halves of the X view. -/
theorem partition_views_differ :
    ([⟨-8, 2⟩, ⟨0, 17⟩, ⟨0, 18⟩, ⟨0, 8⟩, ⟨100, 50⟩, ⟨100, 3⟩, ⟨200, 60⟩, ⟨203, 64⟩] : List Point).Pairwise
      (fun a b => compareX a b ≤ 0) ∧
    ([⟨-8, 2⟩, ⟨100, 3⟩, ⟨0, 8⟩, ⟨0, 17⟩, ⟨0, 18⟩, ⟨100, 50⟩, ⟨200, 60⟩, ⟨203, 64⟩] : List Point).Pairwise
      (fun a b => compareY a b ≤ 0) ∧
    ([⟨-8, 2⟩, ⟨100, 3⟩, ⟨0, 8⟩, ⟨0, 17⟩, ⟨0, 18⟩, ⟨100, 50⟩, ⟨200, 60⟩, ⟨203, 64⟩] : List Point).Perm
      [⟨-8, 2⟩, ⟨0, 17⟩, ⟨0, 18⟩, ⟨0, 8⟩, ⟨100, 50⟩, ⟨100, 3⟩, ⟨200, 60⟩, ⟨203, 64⟩] ∧
    partitionY (([⟨-8, 2⟩, ⟨0, 17⟩, ⟨0, 18⟩, ⟨0, 8⟩, ⟨100, 50⟩, ⟨100, 3⟩, ⟨200, 60⟩, ⟨203, 64⟩] : List Point).getD (8 / 2) default) (8 / 2)
        (([⟨-8, 2⟩, ⟨100, 3⟩, ⟨0, 8⟩, ⟨0, 17⟩, ⟨0, 18⟩, ⟨100, 50⟩, ⟨200, 60⟩, ⟨203, 64⟩] : List Point).take 8) ([], [])
      = ([⟨-8, 2⟩, ⟨100, 3⟩, ⟨0, 8⟩, ⟨0, 17⟩], [⟨0, 18⟩, ⟨100, 50⟩, ⟨200, 60⟩, ⟨203, 64⟩]) ∧
    ¬ ([⟨-8, 2⟩, ⟨100, 3⟩, ⟨0, 8⟩, ⟨0, 17⟩] : List Point).Perm
        (([⟨-8, 2⟩, ⟨0, 17⟩, ⟨0, 18⟩, ⟨0, 8⟩, ⟨100, 50⟩, ⟨100, 3⟩, ⟨200, 60⟩, ⟨203, 64⟩] : List Point).take (8 / 2)) ∧
    ¬ ([⟨0, 18⟩, ⟨100, 50⟩, ⟨200, 60⟩, ⟨203, 64⟩] : List Point).Perm
        (([⟨-8, 2⟩, ⟨0, 17⟩, ⟨0, 18⟩, ⟨0, 8⟩, ⟨100, 50⟩, ⟨100, 3⟩, ⟨200, 60⟩, ⟨203, 64⟩] : List Point).drop (8 / 2)) := by
  have hX : stableQsort compareX [⟨-8, 2⟩, ⟨0, 17⟩, ⟨0, 18⟩, ⟨0, 8⟩, ⟨100, 50⟩, ⟨100, 3⟩, ⟨200, 60⟩, ⟨203, 64⟩] = [⟨-8, 2⟩, ⟨0, 17⟩, ⟨0, 18⟩, ⟨0, 8⟩, ⟨100, 50⟩, ⟨100, 3⟩, ⟨200, 60⟩, ⟨203, 64⟩] := by
    norm_num [stableQsort, compareX_le_zero_iff, List.insertionSort, List.orderedInsert]
  have hY : stableQsort compareY [⟨-8, 2⟩, ⟨0, 17⟩, ⟨0, 18⟩, ⟨0, 8⟩, ⟨100, 50⟩, ⟨100, 3⟩, ⟨200, 60⟩, ⟨203, 64⟩] = [⟨-8, 2⟩, ⟨100, 3⟩, ⟨0, 8⟩, ⟨0, 17⟩, ⟨0, 18⟩, ⟨100, 50⟩, ⟨200, 60⟩, ⟨203, 64⟩] := by
    norm_num [stableQsort, compareY_le_zero_iff, List.insertionSort, List.orderedInsert]
  have hs := stableQsort_spec [⟨-8, 2⟩, ⟨0, 17⟩, ⟨0, 18⟩, ⟨0, 8⟩, ⟨100, 50⟩, ⟨100, 3⟩, ⟨200, 60⟩, ⟨203, 64⟩]
  rw [hX, hY] at hs
  refine ⟨hs.2.1, hs.2.2.2, hs.2.2.1, ?_, ?_, ?_⟩
  · norm_num [partitionY, isLeft]
  · intro hp
    have hmem : (⟨100, 3⟩ : Point) ∈ ([⟨-8, 2⟩, ⟨0, 17⟩, ⟨0, 18⟩, ⟨0, 8⟩, ⟨100, 50⟩, ⟨100, 3⟩, ⟨200, 60⟩, ⟨203, 64⟩] : List Point).take (8 / 2) :=
      hp.subset (by simp)
    norm_num at hmem
  · intro hp
    have hmem : (⟨0, 18⟩ : Point) ∈ ([⟨-8, 2⟩, ⟨0, 17⟩, ⟨0, 18⟩, ⟨0, 8⟩, ⟨100, 50⟩, ⟨100, 3⟩, ⟨200, 60⟩, ⟨203, 64⟩] : List Point).drop (8 / 2) :=
      hp.subset (by simp)
    norm_num at hmem

/-! ## Distinct x-coordinates: the divide and conquer agrees with brute force -/

/-- A pair that spans the split and is closer than `d` lies in the strip and is
seen by `stripClosest`. -/
theorem spanning_pair_found (L R pointsY : List Point) (midPoint : Point) (d : ℝ)
    (hX : (L ++ midPoint :: R).Pairwise (fun a b => a.x < b.x))
    (hperm : pointsY.Perm (L ++ midPoint :: R))
    (hYs : pointsY.Pairwise (fun a b => a.y ≤ b.y))
    (a b : Point) (ha : a ∈ L) (hb : b ∈ midPoint :: R) (hlt : dist a b < d) :
    a ∈ buildStrip midPoint d pointsY ∧ b ∈ buildStrip midPoint d pointsY ∧
      stripClosest (buildStrip midPoint d pointsY)
        (buildStrip midPoint d pointsY).length d ≤ dist a b := by
  have hsub : List.Sublist (buildStrip midPoint d pointsY) pointsY := List.filter_sublist _
  have hs : MinOver (buildStrip midPoint d pointsY) d
      (stripClosest (buildStrip midPoint d pointsY) (buildStrip midPoint d pointsY).length d) := by
    unfold stripClosest
    rw [List.take_length]
    exact stripOuter_spec _ _ (hYs.sublist hsub)
  rw [List.pairwise_append] at hX
  obtain ⟨_, hRs, hLR⟩ := hX
  rw [List.pairwise_cons] at hRs
  have hab : b.x - a.x ≤ dist a b := sub_x_le_dist a b
  have ham : a.x < midPoint.x := hLR a ha midPoint (List.mem_cons_self _ _)
  have hmb : midPoint.x ≤ b.x := by
    rcases List.mem_cons.mp hb with rfl | hb'
    · exact le_refl _
    · exact le_of_lt (hRs.1 b hb')
  have hax : a ∈ buildStrip midPoint d pointsY := by
    unfold buildStrip
    rw [List.mem_filter]
    refine ⟨hperm.symm.subset (List.mem_append_left _ ha), ?_⟩
    simp only [decide_eq_true_eq]
    rw [abs_lt]
    constructor <;> linarith
  have hbx : b ∈ buildStrip midPoint d pointsY := by
    unfold buildStrip
    rw [List.mem_filter]
    refine ⟨hperm.symm.subset (List.mem_append_right _ hb), ?_⟩
    simp only [decide_eq_true_eq]
    rw [abs_lt]
    constructor <;> linarith
  have hne : a ≠ b := by
    intro e
    rw [e] at ham
    linarith
  have hsymm : Symmetric (fun a b : Point => stripClosest (buildStrip midPoint d pointsY)
      (buildStrip midPoint d pointsY).length d ≤ dist a b) := by
    intro x y hxy
    rw [dist_comm]; exact hxy
  exact ⟨hax, hbx, hs.2.1.forall hsymm hax hbx hne⟩

/-- Claim C15: on an input whose x-coordinates are pairwise distinct, `closest` (with
any conforming `qsort`) returns the value of `closestPairBruteForce`.  The two facts
behind it, for a call whose X view `L ++ midPoint :: R` has strictly increasing x and
whose Y view holds the same points: the partition loop puts exactly the points of
`L` on the left and those of `midPoint :: R` on the right; and when the Y view is in
y order, a pair from the two sides closer than `d` lies in the strip and
`stripClosest` returns at most its distance. -/
theorem closest_eq_bruteForce_on_distinct_x
    (qsort : (Point → Point → ℤ) → List Point → List Point) (hq : QsortSpec qsort)
    (points : List Point) (n : ℕ) (hlen : points.length = n)
    (hx : points.Pairwise (fun a b => a.x ≠ b.x)) :
    closest qsort points n = some (closestPairBruteForce points n) ∧
    (∀ (L R pointsY : List Point) (midPoint : Point),
      (L ++ midPoint :: R).Pairwise (fun a b => a.x < b.x) →
      pointsY.Perm (L ++ midPoint :: R) →
      (partitionY midPoint L.length pointsY ([], [])).1.Perm L ∧
      (partitionY midPoint L.length pointsY ([], [])).2.Perm (midPoint :: R)) ∧
    (∀ (L R pointsY : List Point) (midPoint : Point) (d : ℝ) (a b : Point),
      (L ++ midPoint :: R).Pairwise (fun a b => a.x < b.x) →
      pointsY.Perm (L ++ midPoint :: R) →
      pointsY.Pairwise (fun a b => a.y ≤ b.y) →
      a ∈ L → b ∈ midPoint :: R → dist a b < d →
      a ∈ buildStrip midPoint d pointsY ∧ b ∈ buildStrip midPoint d pointsY ∧
      stripClosest (buildStrip midPoint d pointsY)
        (buildStrip midPoint d pointsY).length d ≤ dist a b) := by
  refine ⟨closest_of_distinct_x qsort hq points n hlen hx, ?_, ?_⟩
  · intro L R pointsY midPoint hX hperm
    obtain ⟨yl, yr, he, hyl, hyr, _, _⟩ := partitionY_matches_split L R pointsY midPoint hX hperm
    rw [he]
    exact ⟨hyl, hyr⟩
  · intro L R pointsY midPoint d a b hX hperm hYs ha hb hlt
    exact spanning_pair_found L R pointsY midPoint d hX hperm hYs a b ha hb hlt

/-- Claim C15 for five points with distinct x-coordinates. -/
theorem closest_eq_bruteForce_on_distinct_x_witness :
    closest stableQsort [⟨3, 7⟩, ⟨0, 0⟩, ⟨4, 2⟩, ⟨1, 5⟩, ⟨2, 1⟩] 5
      = some (closestPairBruteForce [⟨3, 7⟩, ⟨0, 0⟩, ⟨4, 2⟩, ⟨1, 5⟩, ⟨2, 1⟩] 5) ∧
    (∀ (L R pointsY : List Point) (midPoint : Point),
      (L ++ midPoint :: R).Pairwise (fun a b => a.x < b.x) →
      pointsY.Perm (L ++ midPoint :: R) →
      (partitionY midPoint L.length pointsY ([], [])).1.Perm L ∧
      (partitionY midPoint L.length pointsY ([], [])).2.Perm (midPoint :: R)) ∧
    (∀ (L R pointsY : List Point) (midPoint : Point) (d : ℝ) (a b : Point),
      (L ++ midPoint :: R).Pairwise (fun a b => a.x < b.x) →
      pointsY.Perm (L ++ midPoint :: R) →
      pointsY.Pairwise (fun a b => a.y ≤ b.y) →
      a ∈ L → b ∈ midPoint :: R → dist a b < d →
      a ∈ buildStrip midPoint d pointsY ∧ b ∈ buildStrip midPoint d pointsY ∧
      stripClosest (buildStrip midPoint d pointsY)
        (buildStrip midPoint d pointsY).length d ≤ dist a b) :=
  closest_eq_bruteForce_on_distinct_x stableQsort stableQsort_spec
    [⟨3, 7⟩, ⟨0, 0⟩, ⟨4, 2⟩, ⟨1, 5⟩, ⟨2, 1⟩] 5 rfl (by norm_num)

/-! ## Soundness: every result is `DBL_MAX` or the distance of a pair -/

theorem roundHalfEven_intCast (n : ℤ) : roundHalfEven (n : ℝ) = n := by
  unfold roundHalfEven
  rw [Int.floor_intCast, sub_self, if_pos (by norm_num)]

theorem roundHalfEven_small {q : ℝ} (h0 : 0 ≤ q) (h1 : q < 1 / 2) : roundHalfEven q = 0 := by
  have hf : ⌊q⌋ = 0 := by
    rw [Int.floor_eq_iff]
    constructor
    · simpa using h0
    · simp only [Int.cast_zero, zero_add]
      linarith
  unfold roundHalfEven
  rw [hf, Int.cast_zero, sub_zero, if_pos h1]

theorem roundHalfEven_nonneg {q : ℝ} (h0 : 0 ≤ q) : 0 ≤ roundHalfEven q := by
  have hf : 0 ≤ ⌊q⌋ := Int.floor_nonneg.mpr h0
  unfold roundHalfEven
  split_ifs <;> omega

theorem roundNonneg_zero : roundNonneg 0 = 0 := by
  unfold roundNonneg roundFinite ulp
  simp only [zero_div]
  have : roundHalfEven 0 = 0 := by simpa using roundHalfEven_intCast 0
  rw [this]
  simp
  positivity

theorem log_two_zpow (k : ℤ) : Int.log 2 ((2 : ℝ) ^ k) = k := by
  have := Int.log_zpow (R := ℝ) (b := 2) (by norm_num) k
  simpa using this

theorem roundNonneg_zpow (k : ℤ) (h1 : -1022 ≤ k) :
    roundNonneg ((2 : ℝ) ^ k)
      = if (1024 : ℤ) ≤ k then ⊤ else (((2 : ℝ) ^ k : ℝ) : EReal) := by
  have hq : (2 : ℝ) ^ k / (2 : ℝ) ^ (k - 52) = ((2 ^ 52 : ℤ) : ℝ) := by
    rw [← zpow_sub₀ (by norm_num : (2 : ℝ) ≠ 0)]
    norm_num
  have hval : ((2 ^ 52 : ℤ) : ℝ) * (2 : ℝ) ^ (k - 52) = (2 : ℝ) ^ k := by
    rw [← hq]
    field_simp
  unfold roundNonneg roundFinite ulp
  simp only [log_two_zpow, max_eq_left h1, hq, roundHalfEven_intCast, hval]
  have hiff : (2 : ℝ) ^ (1024 : ℤ) ≤ (2 : ℝ) ^ k ↔ (1024 : ℤ) ≤ k :=
    zpow_le_zpow_iff_right₀ (by norm_num)
  simp only [hiff]

theorem roundNonneg_underflow {x : ℝ} (h0 : 0 ≤ x) (h1 : x < (2 : ℝ) ^ (-1075 : ℤ)) :
    roundNonneg x = 0 := by
  rcases eq_or_lt_of_le h0 with h | h
  · rw [← h]; exact roundNonneg_zero
  have hlog : Int.log 2 x ≤ -1022 := by
    have h2 : x < ((2 : ℕ) : ℝ) ^ (-1022 : ℤ) := by
      have := lt_trans h1 (zpow_lt_zpow_right₀ (by norm_num : (1 : ℝ) < 2)
        (by norm_num : (-1075 : ℤ) < -1022))
      exact_mod_cast this
    have := (Int.lt_zpow_iff_log_lt (R := ℝ) (b := 2) (by norm_num) h).mp h2
    omega
  have hq0 : 0 ≤ x / (2 : ℝ) ^ ((-1022 : ℤ) - 52) := by positivity
  have hq : x / (2 : ℝ) ^ ((-1022 : ℤ) - 52) < 1 / 2 := by
    rw [div_lt_iff₀ (by positivity)]
    calc x < (2 : ℝ) ^ (-1075 : ℤ) := h1
      _ = 1 / 2 * (2 : ℝ) ^ ((-1022 : ℤ) - 52) := by
        rw [show ((-1022 : ℤ) - 52) = (-1075 : ℤ) + 1 by norm_num, zpow_add_one₀ (by norm_num)]
        ring
  unfold roundNonneg roundFinite ulp
  simp only [max_eq_right hlog, roundHalfEven_small hq0 hq]
  simp
  positivity

theorem roundNonneg_nonneg {x : ℝ} (h0 : 0 ≤ x) : 0 ≤ roundNonneg x := by
  unfold roundNonneg roundFinite ulp
  split_ifs
  · exact le_top
  · rw [EReal.coe_nonneg]
    have h1 : (0 : ℝ) ≤ x / 2 ^ (max (Int.log 2 x) (-1022) - 52) := by positivity
    have h2 := roundHalfEven_nonneg h1
    have h3 : (0 : ℝ) ≤ (roundHalfEven (x / 2 ^ (max (Int.log 2 x) (-1022) - 52)) : ℝ) := by
      exact_mod_cast h2
    positivity

theorem roundDouble_zero : roundDouble 0 = 0 := by
  unfold roundDouble
  rw [if_neg (lt_irrefl _), roundNonneg_zero]

theorem roundDouble_neg (x : ℝ) : roundDouble (-x) = -roundDouble x := by
  unfold roundDouble
  rcases lt_trichotomy x 0 with h | h | h
  · rw [if_neg (by linarith), if_pos h, neg_neg]
  · subst h
    simp [roundNonneg_zero]
  · rw [if_pos (by linarith), if_neg (by linarith), neg_neg]

theorem roundDouble_nonneg {x : ℝ} (h0 : 0 ≤ x) : 0 ≤ roundDouble x := by
  unfold roundDouble
  rw [if_neg (not_lt.mpr h0)]
  exact roundNonneg_nonneg h0

theorem roundE_zero : roundE 0 = 0 := by
  unfold roundE
  rw [if_neg (by simp), if_neg (by simp)]
  simpa using roundDouble_zero

theorem roundE_nonneg {v : EReal} (h0 : 0 ≤ v) : 0 ≤ roundE v := by
  unfold roundE
  split_ifs with h1 h2
  · exact le_top
  · rw [h2] at h0
    exact absurd h0 (by simp)
  · have hc := EReal.coe_toReal h1 h2
    rw [← hc] at h0
    exact roundDouble_nonneg (EReal.coe_nonneg.mp h0)

theorem sqrtE_nonneg (v : EReal) : 0 ≤ sqrtE v := by
  unfold sqrtE
  split_ifs
  · exact le_top
  · exact EReal.coe_nonneg.mpr (Real.sqrt_nonneg _)

theorem subDouble_swap (a b : ℝ) : subDouble b a = -subDouble a b := by
  unfold subDouble
  rw [← roundDouble_neg, neg_sub]

theorem distDouble_nonneg (p q : Point) : 0 ≤ distDouble p q :=
  roundE_nonneg (sqrtE_nonneg _)

theorem distDouble_comm (p q : Point) : distDouble p q = distDouble q p := by
  unfold distDouble
  rw [subDouble_swap p.x q.x, subDouble_swap p.y q.y, neg_mul_neg, neg_mul_neg]

theorem sqrtE_zero : sqrtE 0 = 0 := by
  unfold sqrtE
  rw [if_neg (by simp)]
  simp

theorem distDouble_self_coords (p q : Point) (hx : p.x = q.x) (hy : p.y = q.y) :
    distDouble p q = 0 := by
  unfold distDouble subDouble
  rw [hx, hy, sub_self, sub_self, roundDouble_zero, mul_zero, roundE_zero, add_zero, roundE_zero,
    sqrtE_zero, roundE_zero]

theorem roundHalfEven_le_half {q : ℝ} (h0 : 0 ≤ q) (h1 : q ≤ 1 / 2) : roundHalfEven q = 0 := by
  have hf : ⌊q⌋ = 0 := by
    rw [Int.floor_eq_iff]
    constructor
    · simpa using h0
    · simp only [Int.cast_zero, zero_add]
      linarith
  unfold roundHalfEven
  rw [hf, Int.cast_zero, sub_zero]
  split_ifs with h2 h3 h4
  · rfl
  · linarith
  · rfl
  · exact absurd (by decide : Even (0 : ℤ)) h4

theorem roundHalfEven_pos {q : ℝ} (h : 1 / 2 < q) : 1 ≤ roundHalfEven q := by
  have hf : 0 ≤ ⌊q⌋ := Int.floor_nonneg.mpr (by linarith)
  unfold roundHalfEven
  split_ifs with h1 h2 h3
  · by_contra hlt
    have h0 : ⌊q⌋ = 0 := by omega
    rw [h0, Int.cast_zero, sub_zero] at h1
    linarith
  · omega
  · by_contra hlt
    have h0 : ⌊q⌋ = 0 := by omega
    rw [h0, Int.cast_zero, sub_zero] at h2
    exact h2 h
  · omega

/-- The exponent used by `roundNonneg` for a positive `x`, and the scaled value. -/
theorem scaled_gt_half {x : ℝ} (hx : (2 : ℝ) ^ (-1075 : ℤ) < x) :
    1 / 2 < x / (2 : ℝ) ^ (max (Int.log 2 x) (-1022) - 52) := by
  have hx0 : 0 < x := lt_trans (by positivity) hx
  rw [lt_div_iff₀ (by positivity)]
  rcases le_total (Int.log 2 x) (-1022) with h | h
  · rw [max_eq_right h]
    calc 1 / 2 * (2 : ℝ) ^ ((-1022 : ℤ) - 52) = (2 : ℝ) ^ (-1075 : ℤ) := by
          rw [show ((-1022 : ℤ) - 52) = (-1075 : ℤ) + 1 by norm_num,
            zpow_add_one₀ (by norm_num)]
          ring
      _ < x := hx
  · rw [max_eq_left h]
    have h1 : ((2 : ℕ) : ℝ) ^ Int.log 2 x ≤ x := Int.zpow_log_le_self (by norm_num) hx0
    have h2 : (2 : ℝ) ^ (Int.log 2 x - 52) ≤ (2 : ℝ) ^ Int.log 2 x :=
      zpow_le_zpow_right₀ (by norm_num) (by omega)
    have h3 : (0 : ℝ) < (2 : ℝ) ^ (Int.log 2 x - 52) := by positivity
    have h1' : (2 : ℝ) ^ Int.log 2 x ≤ x := by exact_mod_cast h1
    linarith

theorem ulp_ge (x : ℝ) :
    (2 : ℝ) ^ (-1074 : ℤ) ≤ (2 : ℝ) ^ (max (Int.log 2 x) (-1022) - 52) :=
  zpow_le_zpow_right₀ (by norm_num) (by
    have := le_max_right (Int.log 2 x) (-1022)
    omega)

/-- A rounded non-negative value is 0 or at least the least positive double. -/
theorem roundNonneg_zero_or_ge {x : ℝ} (h0 : 0 ≤ x) :
    roundNonneg x = 0 ∨ (((2 : ℝ) ^ (-1074 : ℤ) : ℝ) : EReal) ≤ roundNonneg x := by
  have hq : (0 : ℝ) ≤ x / (2 : ℝ) ^ (max (Int.log 2 x) (-1022) - 52) := by positivity
  have hn := roundHalfEven_nonneg hq
  unfold roundNonneg roundFinite ulp
  split_ifs with hov
  · exact Or.inr le_top
  · rcases eq_or_lt_of_le hn with h | h
    · left
      rw [← h]
      simp
    · right
      rw [EReal.coe_le_coe_iff]
      have h1 : (1 : ℝ) ≤ (roundHalfEven (x / (2 : ℝ) ^ (max (Int.log 2 x) (-1022) - 52)) : ℝ) := by
        exact_mod_cast h
      have h2 := ulp_ge x
      have h3 : (0 : ℝ) ≤ (2 : ℝ) ^ (max (Int.log 2 x) (-1022) - 52) := by positivity
      calc (2 : ℝ) ^ (-1074 : ℤ) ≤ (2 : ℝ) ^ (max (Int.log 2 x) (-1022) - 52) := h2
        _ = 1 * (2 : ℝ) ^ (max (Int.log 2 x) (-1022) - 52) := (one_mul _).symm
        _ ≤ _ := mul_le_mul_of_nonneg_right h1 h3

theorem roundNonneg_eq_zero_iff {x : ℝ} (h0 : 0 ≤ x) :
    roundNonneg x = 0 ↔ x ≤ (2 : ℝ) ^ (-1075 : ℤ) := by
  constructor
  · intro h
    by_contra hx
    have hx' := not_le.mp hx
    have hn := roundHalfEven_pos (scaled_gt_half hx')
    have hpos : (0 : ℝ) < (roundHalfEven (x / (2 : ℝ) ^ (max (Int.log 2 x) (-1022) - 52)) : ℝ)
        * (2 : ℝ) ^ (max (Int.log 2 x) (-1022) - 52) := by
      have h1 : (1 : ℝ) ≤ (roundHalfEven (x / (2 : ℝ) ^ (max (Int.log 2 x) (-1022) - 52)) : ℝ) := by
        exact_mod_cast hn
      have h2 : (0 : ℝ) < (2 : ℝ) ^ (max (Int.log 2 x) (-1022) - 52) := by positivity
      exact mul_pos (by linarith) h2
    unfold roundNonneg roundFinite ulp at h
    split_ifs at h
    · exact absurd h (by simp)
    · rw [EReal.coe_eq_zero] at h
      linarith
  · intro hx
    rcases eq_or_lt_of_le h0 with h | h
    · rw [← h]; exact roundNonneg_zero
    have hlog : Int.log 2 x ≤ -1022 := by
      have h2 : x < ((2 : ℕ) : ℝ) ^ (-1022 : ℤ) := by
        have := lt_of_le_of_lt hx (zpow_lt_zpow_right₀ (by norm_num : (1 : ℝ) < 2)
          (by norm_num : (-1075 : ℤ) < -1022))
        exact_mod_cast this
      have := (Int.lt_zpow_iff_log_lt (R := ℝ) (b := 2) (by norm_num) h).mp h2
      omega
    have hq0 : 0 ≤ x / (2 : ℝ) ^ ((-1022 : ℤ) - 52) := by positivity
    have hq : x / (2 : ℝ) ^ ((-1022 : ℤ) - 52) ≤ 1 / 2 := by
      rw [div_le_iff₀ (by positivity)]
      calc x ≤ (2 : ℝ) ^ (-1075 : ℤ) := hx
        _ = 1 / 2 * (2 : ℝ) ^ ((-1022 : ℤ) - 52) := by
          rw [show ((-1022 : ℤ) - 52) = (-1075 : ℤ) + 1 by norm_num, zpow_add_one₀ (by norm_num)]
          ring
    unfold roundNonneg roundFinite ulp
    simp only [max_eq_right hlog, roundHalfEven_le_half hq0 hq]
    simp
    positivity

theorem roundE_coe (x : ℝ) : roundE (x : EReal) = roundDouble x := by
  unfold roundE
  rw [if_neg (EReal.coe_ne_top x), if_neg (EReal.coe_ne_bot x), EReal.toReal_coe]

theorem roundE_top : roundE ⊤ = ⊤ := by
  unfold roundE
  rw [if_pos rfl]

theorem roundDouble_of_nonneg {x : ℝ} (h0 : 0 ≤ x) : roundDouble x = roundNonneg x := by
  unfold roundDouble
  rw [if_neg (not_lt.mpr h0)]

theorem roundE_eq_zero_iff {v : EReal} (h0 : 0 ≤ v) :
    roundE v = 0 ↔ v ≤ (((2 : ℝ) ^ (-1075 : ℤ) : ℝ) : EReal) := by
  induction v using EReal.rec with
  | h_bot => exact absurd h0 (by simp)
  | h_real x =>
    have hx : 0 ≤ x := EReal.coe_nonneg.mp h0
    rw [roundE_coe, roundDouble_of_nonneg hx, roundNonneg_eq_zero_iff hx, EReal.coe_le_coe_iff]
  | h_top =>
    rw [roundE_top]
    constructor
    · intro h
      exact absurd h (by simp)
    · intro h
      exact absurd (top_le_iff.mp h) (EReal.coe_ne_top _)

theorem roundE_zero_or_ge {v : EReal} (h0 : 0 ≤ v) :
    roundE v = 0 ∨ (((2 : ℝ) ^ (-1074 : ℤ) : ℝ) : EReal) ≤ roundE v := by
  induction v using EReal.rec with
  | h_bot => exact absurd h0 (by simp)
  | h_real x =>
    have hx : 0 ≤ x := EReal.coe_nonneg.mp h0
    rw [roundE_coe, roundDouble_of_nonneg hx]
    exact roundNonneg_zero_or_ge hx
  | h_top =>
    rw [roundE_top]
    exact Or.inr le_top

theorem ereal_mul_self_nonneg (u : EReal) : 0 ≤ u * u := by
  induction u using EReal.rec with
  | h_bot => rw [EReal.bot_mul_bot]; exact le_top
  | h_real x =>
    rw [← EReal.coe_mul]
    exact EReal.coe_nonneg.mpr (mul_self_nonneg x)
  | h_top => rw [EReal.top_mul_top]; exact le_top

theorem sqrtE_gt_of_ge {s : EReal} (h : (((2 : ℝ) ^ (-1074 : ℤ) : ℝ) : EReal) ≤ s) :
    (((2 : ℝ) ^ (-1075 : ℤ) : ℝ) : EReal) < sqrtE s := by
  induction s using EReal.rec with
  | h_bot => exact absurd h (by simp)
  | h_real x =>
    have hx : (2 : ℝ) ^ (-1074 : ℤ) ≤ x := EReal.coe_le_coe_iff.mp h
    unfold sqrtE
    rw [if_neg (EReal.coe_ne_top x), EReal.toReal_coe, EReal.coe_lt_coe_iff,
      Real.lt_sqrt (by positivity)]
    have h1 : ((2 : ℝ) ^ (-1075 : ℤ)) ^ 2 < (2 : ℝ) ^ (-1074 : ℤ) := by
      rw [← zpow_natCast, ← zpow_mul]
      exact zpow_lt_zpow_right₀ (by norm_num) (by norm_num)
    linarith
  | h_top =>
    unfold sqrtE
    rw [if_pos rfl]
    exact EReal.coe_lt_top _

/-- In double arithmetic `dist` is 0 exactly when both squared coordinate differences
round to 0. -/
theorem distDouble_eq_zero_iff (p q : Point) :
    distDouble p q = 0 ↔
      roundE (subDouble p.x q.x * subDouble p.x q.x) = 0 ∧
      roundE (subDouble p.y q.y * subDouble p.y q.y) = 0 := by
  have ha0 : 0 ≤ roundE (subDouble p.x q.x * subDouble p.x q.x) :=
    roundE_nonneg (ereal_mul_self_nonneg _)
  have hb0 : 0 ≤ roundE (subDouble p.y q.y * subDouble p.y q.y) :=
    roundE_nonneg (ereal_mul_self_nonneg _)
  have ha := roundE_zero_or_ge (ereal_mul_self_nonneg (subDouble p.x q.x))
  have hb := roundE_zero_or_ge (ereal_mul_self_nonneg (subDouble p.y q.y))
  unfold distDouble
  generalize roundE (subDouble p.x q.x * subDouble p.x q.x) = a at ha0 ha ⊢
  generalize roundE (subDouble p.y q.y * subDouble p.y q.y) = b at hb0 hb ⊢
  have hab0 : 0 ≤ a + b := add_nonneg ha0 hb0
  have hlt : (((2 : ℝ) ^ (-1075 : ℤ) : ℝ) : EReal) < (((2 : ℝ) ^ (-1074 : ℤ) : ℝ) : EReal) :=
    EReal.coe_lt_coe_iff.mpr (zpow_lt_zpow_right₀ (by norm_num) (by norm_num))
  constructor
  · intro h
    rw [roundE_eq_zero_iff (sqrtE_nonneg _)] at h
    have hs : roundE (a + b) = 0 := by
      rcases roundE_zero_or_ge hab0 with h1 | h1
      · exact h1
      · exact absurd h (not_le.mpr (sqrtE_gt_of_ge h1))
    rw [roundE_eq_zero_iff hab0] at hs
    constructor
    · rcases ha with h1 | h1
      · exact h1
      · exact absurd (le_trans h1 (le_trans (le_add_of_nonneg_right hb0) hs)) (not_le.mpr hlt)
    · rcases hb with h1 | h1
      · exact h1
      · exact absurd (le_trans h1 (le_trans (le_add_of_nonneg_left ha0) hs)) (not_le.mpr hlt)
  · rintro ⟨h1, h2⟩
    rw [h1, h2, add_zero, roundE_zero, sqrtE_zero, roundE_zero]

theorem roundDouble_zpow (k : ℤ) (h1 : -1022 ≤ k) :
    roundDouble ((2 : ℝ) ^ k)
      = if (1024 : ℤ) ≤ k then ⊤ else (((2 : ℝ) ^ k : ℝ) : EReal) := by
  rw [roundDouble_of_nonneg (by positivity), roundNonneg_zpow k h1]

/-- The rounded square of the difference of `0` and `2^k`. -/
theorem square_of_zpow (k : ℤ) (h1 : -1022 ≤ k) (h2 : k < 1024) :
    roundE (subDouble 0 ((2 : ℝ) ^ k) * subDouble 0 ((2 : ℝ) ^ k))
      = roundDouble ((2 : ℝ) ^ (2 * k)) := by
  unfold subDouble
  rw [zero_sub, roundDouble_neg, roundDouble_zpow k h1, if_neg (by omega), neg_mul_neg,
    ← EReal.coe_mul, roundE_coe]
  congr 1
  rw [two_mul, zpow_add₀ (by norm_num)]

theorem square_of_zero : roundE (subDouble 0 0 * subDouble 0 0) = 0 := by
  unfold subDouble
  rw [sub_self, roundDouble_zero, mul_zero, roundE_zero]

/-- Underflow: the points `(0,0)` and `(2^-600, 0)` are at computed distance 0. -/
theorem distDouble_underflow : distDouble ⟨0, 0⟩ ⟨(2 : ℝ) ^ (-600 : ℤ), 0⟩ = 0 := by
  rw [distDouble_eq_zero_iff]
  refine ⟨?_, square_of_zero⟩
  show roundE (subDouble 0 ((2 : ℝ) ^ (-600 : ℤ)) * subDouble 0 ((2 : ℝ) ^ (-600 : ℤ))) = 0
  rw [square_of_zpow _ (by norm_num) (by norm_num), roundDouble_of_nonneg (by positivity),
    roundNonneg_eq_zero_iff (by positivity)]
  exact zpow_le_zpow_right₀ (by norm_num) (by norm_num)

/-- Overflow: the points `(0,0)` and `(2^600, 0)` are at computed distance `+∞`. -/
theorem distDouble_overflow : distDouble ⟨0, 0⟩ ⟨(2 : ℝ) ^ (600 : ℤ), 0⟩ = ⊤ := by
  have h1 : roundE (subDouble 0 ((2 : ℝ) ^ (600 : ℤ)) * subDouble 0 ((2 : ℝ) ^ (600 : ℤ))) = ⊤ := by
    rw [square_of_zpow _ (by norm_num) (by norm_num), roundDouble_zpow _ (by norm_num),
      if_pos (by norm_num)]
  show roundE (sqrtE (roundE (
    roundE (subDouble 0 ((2 : ℝ) ^ (600 : ℤ)) * subDouble 0 ((2 : ℝ) ^ (600 : ℤ)))
      + roundE (subDouble 0 0 * subDouble 0 0)))) = ⊤
  rw [h1, square_of_zero, add_zero, roundE_top]
  unfold sqrtE
  rw [if_pos rfl, roundE_top]

/-! ## Rounding is monotone -/

theorem roundHalfEven_ge_floor (q : ℝ) : ⌊q⌋ ≤ roundHalfEven q := by
  unfold roundHalfEven
  split_ifs <;> omega

theorem roundHalfEven_le_floor_succ (q : ℝ) : roundHalfEven q ≤ ⌊q⌋ + 1 := by
  unfold roundHalfEven
  split_ifs <;> omega

theorem roundHalfEven_mono {q r : ℝ} (h : q ≤ r) : roundHalfEven q ≤ roundHalfEven r := by
  rcases lt_or_eq_of_le (Int.floor_mono h) with hlt | heq
  · have h1 := roundHalfEven_le_floor_succ q
    have h2 := roundHalfEven_ge_floor r
    omega
  · unfold roundHalfEven
    rw [← heq]
    split_ifs <;> first | omega | (exfalso; linarith)

theorem ulp_pos (x : ℝ) : 0 < ulp x := by
  unfold ulp
  positivity

theorem zpow_eq_intCast (j : ℤ) (hj : 0 ≤ j) : (2 : ℝ) ^ j = (((2 : ℤ) ^ j.toNat : ℤ) : ℝ) := by
  lift j to ℕ using hj
  simp

theorem roundFinite_le_zpow {x : ℝ} {k : ℤ} (hk : max (Int.log 2 x) (-1022) - 52 ≤ k)
    (hx : x ≤ (2 : ℝ) ^ k) : roundFinite x ≤ (2 : ℝ) ^ k := by
  have hq : x / ulp x ≤ (2 : ℝ) ^ (k - (max (Int.log 2 x) (-1022) - 52)) := by
    rw [div_le_iff₀ (ulp_pos x)]
    unfold ulp
    rw [← zpow_add₀ (by norm_num : (2 : ℝ) ≠ 0), sub_add_cancel]
    exact hx
  rw [zpow_eq_intCast _ (by omega)] at hq
  have h1 := roundHalfEven_mono hq
  rw [roundHalfEven_intCast] at h1
  have h2 : (roundHalfEven (x / ulp x) : ℝ)
      ≤ (((2 : ℤ) ^ (k - (max (Int.log 2 x) (-1022) - 52)).toNat : ℤ) : ℝ) := by
    exact_mod_cast h1
  rw [← zpow_eq_intCast _ (by omega)] at h2
  unfold roundFinite
  calc (roundHalfEven (x / ulp x) : ℝ) * ulp x
      ≤ (2 : ℝ) ^ (k - (max (Int.log 2 x) (-1022) - 52)) * ulp x :=
        mul_le_mul_of_nonneg_right h2 (le_of_lt (ulp_pos x))
    _ = (2 : ℝ) ^ k := by
        unfold ulp
        rw [← zpow_add₀ (by norm_num : (2 : ℝ) ≠ 0), sub_add_cancel]

theorem zpow_le_roundFinite {x : ℝ} {k : ℤ} (hk : max (Int.log 2 x) (-1022) - 52 ≤ k)
    (hx : (2 : ℝ) ^ k ≤ x) : (2 : ℝ) ^ k ≤ roundFinite x := by
  have hq : (2 : ℝ) ^ (k - (max (Int.log 2 x) (-1022) - 52)) ≤ x / ulp x := by
    rw [le_div_iff₀ (ulp_pos x)]
    unfold ulp
    rw [← zpow_add₀ (by norm_num : (2 : ℝ) ≠ 0), sub_add_cancel]
    exact hx
  rw [zpow_eq_intCast _ (by omega)] at hq
  have h1 := roundHalfEven_mono hq
  rw [roundHalfEven_intCast] at h1
  have h2 : (((2 : ℤ) ^ (k - (max (Int.log 2 x) (-1022) - 52)).toNat : ℤ) : ℝ)
      ≤ (roundHalfEven (x / ulp x) : ℝ) := by
    exact_mod_cast h1
  rw [← zpow_eq_intCast _ (by omega)] at h2
  unfold roundFinite
  calc (2 : ℝ) ^ k = (2 : ℝ) ^ (k - (max (Int.log 2 x) (-1022) - 52)) * ulp x := by
        unfold ulp
        rw [← zpow_add₀ (by norm_num : (2 : ℝ) ≠ 0), sub_add_cancel]
    _ ≤ (roundHalfEven (x / ulp x) : ℝ) * ulp x :=
        mul_le_mul_of_nonneg_right h2 (le_of_lt (ulp_pos x))

theorem lt_zpow_binade_succ (x : ℝ) :
    x < (2 : ℝ) ^ (max (Int.log 2 x) (-1022) + 1) := by
  have h1 : x < ((2 : ℕ) : ℝ) ^ (Int.log 2 x + 1) := Int.lt_zpow_succ_log_self (by norm_num) x
  have h2 : (2 : ℝ) ^ (Int.log 2 x + 1) ≤ (2 : ℝ) ^ (max (Int.log 2 x) (-1022) + 1) :=
    zpow_le_zpow_right₀ (by norm_num) (by
      have := le_max_left (Int.log 2 x) (-1022)
      omega)
  have h3 : x < (2 : ℝ) ^ (Int.log 2 x + 1) := by exact_mod_cast h1
  linarith

theorem roundFinite_mono {x y : ℝ} (hx : 0 < x) (hxy : x ≤ y) :
    roundFinite x ≤ roundFinite y := by
  have hlog : Int.log 2 x ≤ Int.log 2 y := Int.log_mono_right hx hxy
  have hef : max (Int.log 2 x) (-1022) ≤ max (Int.log 2 y) (-1022) :=
    max_le_max hlog (le_refl _)
  rcases lt_or_eq_of_le hef with hlt | heq
  · have hy : max (Int.log 2 y) (-1022) = Int.log 2 y := by
      rcases le_total (Int.log 2 y) (-1022) with h | h
      · rw [max_eq_right h] at hlt
        have := le_max_right (Int.log 2 x) (-1022)
        omega
      · exact max_eq_left h
    have h1 : roundFinite x ≤ (2 : ℝ) ^ (max (Int.log 2 x) (-1022) + 1) :=
      roundFinite_le_zpow (by omega) (le_of_lt (lt_zpow_binade_succ x))
    have h2 : (2 : ℝ) ^ (max (Int.log 2 x) (-1022) + 1)
        ≤ (2 : ℝ) ^ (max (Int.log 2 y) (-1022)) :=
      zpow_le_zpow_right₀ (by norm_num) (by omega)
    have h3 : (2 : ℝ) ^ (max (Int.log 2 y) (-1022)) ≤ y := by
      rw [hy]
      have := Int.zpow_log_le_self (b := 2) (by norm_num) (lt_of_lt_of_le hx hxy)
      exact_mod_cast this
    have h4 : (2 : ℝ) ^ (max (Int.log 2 y) (-1022)) ≤ roundFinite y :=
      zpow_le_roundFinite (by omega) h3
    linarith
  · have hu : ulp x = ulp y := by
      unfold ulp
      rw [heq]
    unfold roundFinite
    rw [hu]
    have h1 : x / ulp y ≤ y / ulp y := div_le_div_of_nonneg_right hxy (le_of_lt (ulp_pos y))
    have h2 : (roundHalfEven (x / ulp y) : ℝ) ≤ (roundHalfEven (y / ulp y) : ℝ) := by
      exact_mod_cast roundHalfEven_mono h1
    exact mul_le_mul_of_nonneg_right h2 (le_of_lt (ulp_pos y))

theorem roundNonneg_mono {x y : ℝ} (hx : 0 ≤ x) (hxy : x ≤ y) :
    roundNonneg x ≤ roundNonneg y := by
  rcases eq_or_lt_of_le hx with h | h
  · rw [← h, roundNonneg_zero]
    exact roundNonneg_nonneg (le_trans hx hxy)
  · have hm := roundFinite_mono h hxy
    unfold roundNonneg
    split_ifs with h1 h2 h2
    · exact le_refl _
    · exact absurd (le_trans h1 hm) h2
    · exact le_top
    · exact EReal.coe_le_coe_iff.mpr hm

theorem roundDouble_mono {x y : ℝ} (hxy : x ≤ y) : roundDouble x ≤ roundDouble y := by
  unfold roundDouble
  split_ifs with h1 h2 h2
  · rw [EReal.neg_le_neg_iff]
    exact roundNonneg_mono (by linarith) (by linarith)
  · have h3 : 0 ≤ roundNonneg (-x) := roundNonneg_nonneg (by linarith)
    have h4 : 0 ≤ roundNonneg y := roundNonneg_nonneg (by linarith)
    have h5 : -roundNonneg (-x) ≤ 0 := by
      rw [EReal.neg_le, neg_zero]
      exact h3
    exact le_trans h5 h4
  · linarith
  · exact roundNonneg_mono (by linarith) hxy

theorem roundE_mono {u v : EReal} (h0 : 0 ≤ u) (h : u ≤ v) : roundE u ≤ roundE v := by
  induction v using EReal.rec with
  | h_bot => exact absurd (le_trans h0 h) (by simp)
  | h_top => rw [roundE_top]; exact le_top
  | h_real y =>
    induction u using EReal.rec with
    | h_bot => exact absurd h0 (by simp)
    | h_top => exact absurd (top_le_iff.mp h) (EReal.coe_ne_top _)
    | h_real x =>
      rw [roundE_coe, roundE_coe]
      exact roundDouble_mono (EReal.coe_le_coe_iff.mp h)

theorem sqrtE_mono {u v : EReal} (h0 : 0 ≤ u) (h : u ≤ v) : sqrtE u ≤ sqrtE v := by
  induction v using EReal.rec with
  | h_bot => exact absurd (le_trans h0 h) (by simp)
  | h_top =>
    unfold sqrtE
    rw [if_pos rfl]
    exact le_top
  | h_real y =>
    induction u using EReal.rec with
    | h_bot => exact absurd h0 (by simp)
    | h_top => exact absurd (top_le_iff.mp h) (EReal.coe_ne_top _)
    | h_real x =>
      unfold sqrtE
      rw [if_neg (EReal.coe_ne_top x), if_neg (EReal.coe_ne_top y), EReal.toReal_coe,
        EReal.toReal_coe, EReal.coe_le_coe_iff]
      exact Real.sqrt_le_sqrt (EReal.coe_le_coe_iff.mp h)

/-- The rounded square of a rounded difference depends on the size of the difference
only, and grows with it. -/
theorem square_abs (t : ℝ) :
    roundDouble t * roundDouble t = roundNonneg |t| * roundNonneg |t| := by
  rcases le_total 0 t with h | h
  · rw [abs_of_nonneg h, roundDouble_of_nonneg h]
  · have h1 : roundDouble t = -roundNonneg (-t) := by
      rw [← roundDouble_of_nonneg (by linarith : 0 ≤ -t), roundDouble_neg, neg_neg]
    rw [abs_of_nonpos h, h1, neg_mul_neg]

theorem square_mono {s t : ℝ} (h : |s| ≤ |t|) :
    roundE (roundDouble s * roundDouble s) ≤ roundE (roundDouble t * roundDouble t) := by
  rw [square_abs s, square_abs t]
  have h1 := roundNonneg_mono (abs_nonneg s) h
  have h0 : 0 ≤ roundNonneg |s| := roundNonneg_nonneg (abs_nonneg s)
  have h2 : 0 ≤ roundNonneg |t| := le_trans h0 h1
  refine roundE_mono (mul_nonneg h0 h0) ?_
  exact le_trans (mul_le_mul_of_nonneg_left h1 h0) (mul_le_mul_of_nonneg_right h1 h2)

/-- The computed distance grows with the sizes of the two coordinate differences. -/
theorem distDouble_mono {a b c d : Point} (hx : |a.x - b.x| ≤ |c.x - d.x|)
    (hy : |a.y - b.y| ≤ |c.y - d.y|) : distDouble a b ≤ distDouble c d := by
  unfold distDouble subDouble
  have h1 := square_mono hx
  have h2 := square_mono hy
  have n1 : 0 ≤ roundE (roundDouble (a.x - b.x) * roundDouble (a.x - b.x)) :=
    roundE_nonneg (ereal_mul_self_nonneg _)
  have n2 : 0 ≤ roundE (roundDouble (a.y - b.y) * roundDouble (a.y - b.y)) :=
    roundE_nonneg (ereal_mul_self_nonneg _)
  have h3 := roundE_mono (add_nonneg n1 n2) (add_le_add h1 h2)
  exact roundE_mono (sqrtE_nonneg _) (sqrtE_mono (roundE_nonneg (add_nonneg n1 n2)) h3)

theorem distDouble_congr {a b c d : Point} (hx : a.x - b.x = c.x - d.x)
    (hy : a.y - b.y = c.y - d.y) : distDouble a b = distDouble c d := by
  unfold distDouble subDouble
  rw [hx, hy]

/-! ## Running minima in double arithmetic -/

theorem min_step_double (a m : EReal) :
    (if a < m then a else m) ≤ m ∧ (if a < m then a else m) ≤ a ∧
      ((if a < m then a else m) = m ∨ (if a < m then a else m) = a) := by
  split_ifs with h
  · exact ⟨le_of_lt h, le_refl _, Or.inr rfl⟩
  · exact ⟨le_refl _, not_lt.mp h, Or.inl rfl⟩

theorem innerMinDouble_step {bound : Point → Point → EReal} {p q : Point}
    {rest : List Point} {m r : EReal} (hb : distDouble p q ≤ bound p q)
    (h : InnerMinDouble bound p rest (if distDouble p q < m then distDouble p q else m) r) :
    InnerMinDouble bound p (q :: rest) m r := by
  obtain ⟨h1, h2, h3⟩ := h
  obtain ⟨k1, k2, k3⟩ := min_step_double (distDouble p q) m
  refine ⟨le_trans h1 k1, ?_, ?_⟩
  · intro q' hq'
    rcases List.mem_cons.mp hq' with rfl | hq'
    · exact le_trans (le_trans h1 k2) hb
    · exact h2 q' hq'
  · rcases h3 with e | ⟨q', hq', e⟩
    · rcases k3 with k | k
      · exact Or.inl (e.trans k)
      · exact Or.inr ⟨q, List.mem_cons_self _ _, e.trans k⟩
    · exact Or.inr ⟨q', List.mem_cons_of_mem _ hq', e⟩

theorem minOverDouble_cons {bound : Point → Point → EReal} {p : Point} {l : List Point}
    {m r1 r : EReal} (h1 : InnerMinDouble bound p l m r1) (h2 : MinOverDouble bound l r1 r) :
    MinOverDouble bound (p :: l) m r := by
  obtain ⟨h1a, h1b, h1c⟩ := h1
  obtain ⟨h2a, h2b, h2c⟩ := h2
  refine ⟨le_trans h2a h1a, ?_, ?_⟩
  · rw [List.pairwise_cons]
    exact ⟨fun q hq => le_trans h2a (h1b q hq), h2b⟩
  · rcases h2c with h | ⟨a, b, hab, h⟩
    · rcases h1c with h' | ⟨q, hq, h'⟩
      · left; rw [h, h']
      · right
        refine ⟨p, q, ?_, by rw [h, h']⟩
        exact List.Sublist.cons₂ p (List.singleton_sublist.mpr hq)
    · right
      exact ⟨a, b, List.Sublist.cons p hab, h⟩

/-- The pairs of `MinOverDouble` read by index. -/
theorem minOverDouble_index {bound : Point → Point → EReal} {l : List Point} {m r : EReal}
    (h : MinOverDouble bound l m r) :
    (∀ (i j : ℕ) (hij : i < j) (hj : j < l.length), r ≤ bound l[i] l[j]) ∧
    (r = m ∨ ∃ (i j : ℕ) (hij : i < j) (hj : j < l.length), r = distDouble l[i] l[j]) := by
  obtain ⟨_, hb, hc⟩ := h
  constructor
  · intro i j hij hj
    exact List.pairwise_iff_getElem.mp hb i j (by omega) hj hij
  · rcases hc with e | ⟨a, b, hab, e⟩
    · exact Or.inl e
    · right
      by_contra hne
      have hpw : l.Pairwise (fun a b => r ≠ distDouble a b) := by
        rw [List.pairwise_iff_getElem]
        intro i j hi hj hij e'
        exact hne ⟨i, j, hij, hj, e'⟩
      exact List.pairwise_iff_forall_sublist.mp hpw hab e

theorem bruteInnerDouble_spec (p : Point) (l : List Point) (m : EReal) :
    InnerMinDouble distDouble p l m (bruteInnerDouble p l m) := by
  induction l generalizing m with
  | nil => exact ⟨le_refl _, by simp, Or.inl rfl⟩
  | cons q rest ih =>
    simp only [bruteInnerDouble]
    exact innerMinDouble_step (le_refl _) (ih _)

theorem bruteOuterDouble_spec (l : List Point) (m : EReal) :
    MinOverDouble distDouble l m (bruteOuterDouble l m) := by
  induction l generalizing m with
  | nil => exact ⟨le_refl _, List.Pairwise.nil, Or.inl rfl⟩
  | cons p rest ih =>
    simp only [bruteOuterDouble]
    exact minOverDouble_cons (bruteInnerDouble_spec p rest m) (ih _)

theorem stripInnerDouble_spec (p : Point) (l : List Point) (m : EReal)
    (hs : l.Pairwise (fun a b => a.y ≤ b.y)) :
    InnerMinDouble stripBound p l m (stripInnerDouble p l m) := by
  induction l generalizing m with
  | nil => exact ⟨le_refl _, by simp, Or.inl rfl⟩
  | cons q rest ih =>
    rw [List.pairwise_cons] at hs
    simp only [stripInnerDouble]
    by_cases hgap : subDouble q.y p.y < m
    · rw [if_pos hgap]
      exact innerMinDouble_step (le_max_left _ _) (ih _ hs.2)
    · rw [if_neg hgap]
      refine ⟨le_refl _, ?_, Or.inl rfl⟩
      intro q' hq'
      have hy : q.y ≤ q'.y := by
        rcases List.mem_cons.mp hq' with rfl | hq'
        · exact le_refl _
        · exact hs.1 q' hq'
      have hmono : subDouble q.y p.y ≤ subDouble q'.y p.y :=
        roundDouble_mono (by linarith)
      exact le_trans (not_lt.mp hgap) (le_trans hmono (le_max_right _ _))

theorem stripOuterDouble_spec (l : List Point) (m : EReal)
    (hs : l.Pairwise (fun a b => a.y ≤ b.y)) :
    MinOverDouble stripBound l m (stripOuterDouble l m) := by
  induction l generalizing m with
  | nil => exact ⟨le_refl _, List.Pairwise.nil, Or.inl rfl⟩
  | cons p rest ih =>
    simp only [stripOuterDouble]
    rw [List.pairwise_cons] at hs
    exact minOverDouble_cons (stripInnerDouble_spec p rest m hs.2) (ih _ hs.2)

/-! ## Evaluating double distances -/

theorem distDouble_underflow_y : distDouble ⟨0, 0⟩ ⟨0, (2 : ℝ) ^ (-600 : ℤ)⟩ = 0 := by
  rw [distDouble_eq_zero_iff]
  refine ⟨square_of_zero, ?_⟩
  show roundE (subDouble 0 ((2 : ℝ) ^ (-600 : ℤ)) * subDouble 0 ((2 : ℝ) ^ (-600 : ℤ))) = 0
  rw [square_of_zpow _ (by norm_num) (by norm_num), roundDouble_of_nonneg (by positivity),
    roundNonneg_eq_zero_iff (by positivity)]
  exact zpow_le_zpow_right₀ (by norm_num) (by norm_num)

theorem closestPairBruteForceDouble_overflow_value :
    closestPairBruteForceDouble [⟨0, 0⟩, ⟨(2 : ℝ) ^ (600 : ℤ), 0⟩] 2
      = ((DBL_MAX : ℝ) : EReal) := by
  simp only [closestPairBruteForceDouble, List.take, bruteOuterDouble, bruteInnerDouble,
    distDouble_overflow, if_neg (not_top_lt : ¬ (⊤ : EReal) < ((DBL_MAX : ℝ) : EReal))]

theorem closestPairBruteForceDouble_underflow_value :
    closestPairBruteForceDouble [⟨0, 0⟩, ⟨(2 : ℝ) ^ (-600 : ℤ), 0⟩] 2 = 0 := by
  have hpos : (0 : EReal) < ((DBL_MAX : ℝ) : EReal) := EReal.coe_pos.mpr DBL_MAX_pos
  simp only [closestPairBruteForceDouble, List.take, bruteOuterDouble, bruteInnerDouble,
    distDouble_underflow, if_pos hpos]

/-! ## Claims about the brute-force solver, the strip solver and `dist` -/

/-- Claim C4, as amended: in double arithmetic, for an array of `n` points
`closestPairBruteForce` returns the least of `DBL_MAX` and the computed distances of
all index pairs `i < j < n`: the result is at most `DBL_MAX` and at most the computed
distance of every pair, it is the computed distance of some pair as soon as one
computed distance is below `DBL_MAX`, and it is `DBL_MAX` when none is (every
computed distance overflowed to `+∞`). -/
theorem closestPairBruteForceDouble_min_capped (points : List Point) (n : ℕ)
    (hn : points.length = n) :
    closestPairBruteForceDouble points n ≤ ((DBL_MAX : ℝ) : EReal) ∧
    (∀ (i j : ℕ) (hij : i < j) (hj : j < points.length),
      closestPairBruteForceDouble points n ≤ distDouble points[i] points[j]) ∧
    ((∃ (i j : ℕ) (hij : i < j) (hj : j < points.length),
        distDouble points[i] points[j] < ((DBL_MAX : ℝ) : EReal)) →
      ∃ (i j : ℕ) (hij : i < j) (hj : j < points.length),
        closestPairBruteForceDouble points n = distDouble points[i] points[j]) ∧
    ((∀ (i j : ℕ) (hij : i < j) (hj : j < points.length),
        ((DBL_MAX : ℝ) : EReal) ≤ distDouble points[i] points[j]) →
      closestPairBruteForceDouble points n = ((DBL_MAX : ℝ) : EReal)) := by
  have hspec : MinOverDouble distDouble points ((DBL_MAX : ℝ) : EReal)
      (closestPairBruteForceDouble points n) := by
    unfold closestPairBruteForceDouble
    rw [← hn, List.take_length]
    exact bruteOuterDouble_spec points _
  obtain ⟨hlow, hatt⟩ := minOverDouble_index hspec
  refine ⟨hspec.1, hlow, ?_, ?_⟩
  · rintro ⟨i, j, hij, hj, hlt⟩
    rcases hatt with e | h
    · exact absurd (lt_of_le_of_lt (hlow i j hij hj) hlt) (by rw [e]; exact lt_irrefl _)
    · exact h
  · intro hall
    rcases hatt with e | ⟨i, j, hij, hj, e⟩
    · exact e
    · exact le_antisymm hspec.1 (by rw [e]; exact hall i j hij hj)

/-- The amended claim C4 at the two points `(0,0)` and `(3,4)`. -/
theorem closestPairBruteForceDouble_min_capped_witness :
    closestPairBruteForceDouble [⟨0, 0⟩, ⟨3, 4⟩] 2 ≤ ((DBL_MAX : ℝ) : EReal) ∧
    (∀ (i j : ℕ) (hij : i < j) (hj : j < [(⟨0, 0⟩ : Point), ⟨3, 4⟩].length),
      closestPairBruteForceDouble [⟨0, 0⟩, ⟨3, 4⟩] 2
        ≤ distDouble [(⟨0, 0⟩ : Point), ⟨3, 4⟩][i] [(⟨0, 0⟩ : Point), ⟨3, 4⟩][j]) ∧
    ((∃ (i j : ℕ) (hij : i < j) (hj : j < [(⟨0, 0⟩ : Point), ⟨3, 4⟩].length),
        distDouble [(⟨0, 0⟩ : Point), ⟨3, 4⟩][i] [(⟨0, 0⟩ : Point), ⟨3, 4⟩][j]
          < ((DBL_MAX : ℝ) : EReal)) →
      ∃ (i j : ℕ) (hij : i < j) (hj : j < [(⟨0, 0⟩ : Point), ⟨3, 4⟩].length),
        closestPairBruteForceDouble [⟨0, 0⟩, ⟨3, 4⟩] 2
          = distDouble [(⟨0, 0⟩ : Point), ⟨3, 4⟩][i] [(⟨0, 0⟩ : Point), ⟨3, 4⟩][j]) ∧
    ((∀ (i j : ℕ) (hij : i < j) (hj : j < [(⟨0, 0⟩ : Point), ⟨3, 4⟩].length),
        ((DBL_MAX : ℝ) : EReal)
          ≤ distDouble [(⟨0, 0⟩ : Point), ⟨3, 4⟩][i] [(⟨0, 0⟩ : Point), ⟨3, 4⟩][j]) →
      closestPairBruteForceDouble [⟨0, 0⟩, ⟨3, 4⟩] 2 = ((DBL_MAX : ℝ) : EReal)) :=
  closestPairBruteForceDouble_min_capped [⟨0, 0⟩, ⟨3, 4⟩] 2 rfl

/-- Claim C4 as stated fails: for the two points `(0, 0)` and `(2^600, 0)` the square
of the x-difference overflows, the computed distance of the only pair is `+∞`, the
comparison `d < min` never succeeds and the result is the initial value `DBL_MAX`,
the distance of no pair. -/
theorem closestPairBruteForceDouble_far_pair :
    closestPairBruteForceDouble [⟨0, 0⟩, ⟨(2 : ℝ) ^ (600 : ℤ), 0⟩] 2
      = ((DBL_MAX : ℝ) : EReal) ∧
    distDouble ⟨0, 0⟩ ⟨(2 : ℝ) ^ (600 : ℤ), 0⟩ = ⊤ ∧
    ¬ ∃ (i j : ℕ) (hij : i < j)
        (hj : j < [(⟨0, 0⟩ : Point), ⟨(2 : ℝ) ^ (600 : ℤ), 0⟩].length),
      closestPairBruteForceDouble [⟨0, 0⟩, ⟨(2 : ℝ) ^ (600 : ℤ), 0⟩] 2
        = distDouble [(⟨0, 0⟩ : Point), ⟨(2 : ℝ) ^ (600 : ℤ), 0⟩][i]
            [(⟨0, 0⟩ : Point), ⟨(2 : ℝ) ^ (600 : ℤ), 0⟩][j] := by
  have hd := distDouble_overflow
  have hv := closestPairBruteForceDouble_overflow_value
  refine ⟨hv, hd, ?_⟩
  rintro ⟨i, j, hij, hj, e⟩
  have hj2 : j < 2 := hj
  have hi0 : i = 0 := by omega
  have hj1 : j = 1 := by omega
  subst hi0 hj1
  rw [hv] at e
  simp only [List.getElem_cons_zero, List.getElem_cons_succ] at e
  rw [hd] at e
  exact EReal.coe_ne_top _ e

/-- Claim C5, as amended: in double arithmetic, for a strip in non-decreasing y order
and any bound `d`, `stripClosest` returns a value that is at most `d`, that is `d` or
the computed distance of some pair `i < j` of the strip, and that is, for every pair
`i < j`, at most the computed distance of the pair or at most its computed y-gap
`strip[j].y - strip[i].y`.  Hence, when no pair has a computed distance below its
computed y-gap, the result is the least of `d` and the computed distances of all
pairs.  With fewer than two points the result is `d`. -/
theorem stripClosestDouble_scan (strip : List Point) (size : ℕ) (d : EReal)
    (hsize : strip.length = size) (hs : strip.Pairwise (fun a b => a.y ≤ b.y)) :
    stripClosestDouble strip size d ≤ d ∧
    (stripClosestDouble strip size d = d ∨
      ∃ (i j : ℕ) (hij : i < j) (hj : j < strip.length),
        stripClosestDouble strip size d = distDouble strip[i] strip[j]) ∧
    (∀ (i j : ℕ) (hij : i < j) (hj : j < strip.length),
      stripClosestDouble strip size d ≤ distDouble strip[i] strip[j] ∨
      stripClosestDouble strip size d ≤ subDouble strip[j].y strip[i].y) ∧
    ((∀ (i j : ℕ) (hij : i < j) (hj : j < strip.length),
        subDouble strip[j].y strip[i].y ≤ distDouble strip[i] strip[j]) →
      ∀ (i j : ℕ) (hij : i < j) (hj : j < strip.length),
        stripClosestDouble strip size d ≤ distDouble strip[i] strip[j]) ∧
    (size < 2 → stripClosestDouble strip size d = d) := by
  have hspec : MinOverDouble stripBound strip d (stripClosestDouble strip size d) := by
    unfold stripClosestDouble
    rw [← hsize, List.take_length]
    exact stripOuterDouble_spec strip d hs
  obtain ⟨hlow, hatt⟩ := minOverDouble_index hspec
  have hor : ∀ (i j : ℕ) (hij : i < j) (hj : j < strip.length),
      stripClosestDouble strip size d ≤ distDouble strip[i] strip[j] ∨
      stripClosestDouble strip size d ≤ subDouble strip[j].y strip[i].y := by
    intro i j hij hj
    exact le_max_iff.mp (hlow i j hij hj)
  refine ⟨hspec.1, hatt, hor, ?_, ?_⟩
  · intro hgap i j hij hj
    rcases hor i j hij hj with h | h
    · exact h
    · exact le_trans h (hgap i j hij hj)
  · intro h2
    rcases hatt with e | ⟨i, j, hij, hj, _⟩
    · exact e
    · omega

/-- The amended claim C5 at the strip `(0,0), (0,1), (0,3)` with bound `2`. -/
theorem stripClosestDouble_scan_witness :
    stripClosestDouble [⟨0, 0⟩, ⟨0, 1⟩, ⟨0, 3⟩] 3 2 ≤ 2 ∧
    (stripClosestDouble [⟨0, 0⟩, ⟨0, 1⟩, ⟨0, 3⟩] 3 2 = 2 ∨
      ∃ (i j : ℕ) (hij : i < j) (hj : j < [(⟨0, 0⟩ : Point), ⟨0, 1⟩, ⟨0, 3⟩].length),
        stripClosestDouble [⟨0, 0⟩, ⟨0, 1⟩, ⟨0, 3⟩] 3 2
          = distDouble [(⟨0, 0⟩ : Point), ⟨0, 1⟩, ⟨0, 3⟩][i]
              [(⟨0, 0⟩ : Point), ⟨0, 1⟩, ⟨0, 3⟩][j]) ∧
    (∀ (i j : ℕ) (hij : i < j) (hj : j < [(⟨0, 0⟩ : Point), ⟨0, 1⟩, ⟨0, 3⟩].length),
      stripClosestDouble [⟨0, 0⟩, ⟨0, 1⟩, ⟨0, 3⟩] 3 2
        ≤ distDouble [(⟨0, 0⟩ : Point), ⟨0, 1⟩, ⟨0, 3⟩][i]
            [(⟨0, 0⟩ : Point), ⟨0, 1⟩, ⟨0, 3⟩][j] ∨
      stripClosestDouble [⟨0, 0⟩, ⟨0, 1⟩, ⟨0, 3⟩] 3 2
        ≤ subDouble [(⟨0, 0⟩ : Point), ⟨0, 1⟩, ⟨0, 3⟩][j].y
            [(⟨0, 0⟩ : Point), ⟨0, 1⟩, ⟨0, 3⟩][i].y) ∧
    ((∀ (i j : ℕ) (hij : i < j) (hj : j < [(⟨0, 0⟩ : Point), ⟨0, 1⟩, ⟨0, 3⟩].length),
        subDouble [(⟨0, 0⟩ : Point), ⟨0, 1⟩, ⟨0, 3⟩][j].y
            [(⟨0, 0⟩ : Point), ⟨0, 1⟩, ⟨0, 3⟩][i].y
          ≤ distDouble [(⟨0, 0⟩ : Point), ⟨0, 1⟩, ⟨0, 3⟩][i]
              [(⟨0, 0⟩ : Point), ⟨0, 1⟩, ⟨0, 3⟩][j]) →
      ∀ (i j : ℕ) (hij : i < j) (hj : j < [(⟨0, 0⟩ : Point), ⟨0, 1⟩, ⟨0, 3⟩].length),
        stripClosestDouble [⟨0, 0⟩, ⟨0, 1⟩, ⟨0, 3⟩] 3 2
          ≤ distDouble [(⟨0, 0⟩ : Point), ⟨0, 1⟩, ⟨0, 3⟩][i]
              [(⟨0, 0⟩ : Point), ⟨0, 1⟩, ⟨0, 3⟩][j]) ∧
    (3 < 2 → stripClosestDouble [⟨0, 0⟩, ⟨0, 1⟩, ⟨0, 3⟩] 3 2 = 2) :=
  stripClosestDouble_scan [⟨0, 0⟩, ⟨0, 1⟩, ⟨0, 3⟩] 3 2 rfl (by simp)

/-- Claim C5 as stated fails: the strip `(0, 0), (0, 2^-600)` is in y order, and with
the bound `d = 2^-601` the y-gap `2^-600` is not below the running minimum, so the
early exit skips the only pair and the result is `d`; the computed distance of that
pair is 0 (the square of the gap underflows), below the returned value. -/
theorem stripClosestDouble_skips_closer_pair :
    [(⟨0, 0⟩ : Point), ⟨0, (2 : ℝ) ^ (-600 : ℤ)⟩].Pairwise (fun a b => a.y ≤ b.y) ∧
    stripClosestDouble [⟨0, 0⟩, ⟨0, (2 : ℝ) ^ (-600 : ℤ)⟩] 2
        (((2 : ℝ) ^ (-601 : ℤ) : ℝ) : EReal)
      = (((2 : ℝ) ^ (-601 : ℤ) : ℝ) : EReal) ∧
    distDouble ⟨0, 0⟩ ⟨0, (2 : ℝ) ^ (-600 : ℤ)⟩ = 0 ∧
    ¬ (stripClosestDouble [⟨0, 0⟩, ⟨0, (2 : ℝ) ^ (-600 : ℤ)⟩] 2
          (((2 : ℝ) ^ (-601 : ℤ) : ℝ) : EReal)
        ≤ distDouble ⟨0, 0⟩ ⟨0, (2 : ℝ) ^ (-600 : ℤ)⟩) := by
  have hgap : subDouble ((2 : ℝ) ^ (-600 : ℤ)) 0 = (((2 : ℝ) ^ (-600 : ℤ) : ℝ) : EReal) := by
    unfold subDouble
    rw [sub_zero, roundDouble_zpow _ (by norm_num), if_neg (by norm_num)]
  have hnot : ¬ ((((2 : ℝ) ^ (-600 : ℤ) : ℝ) : EReal) < (((2 : ℝ) ^ (-601 : ℤ) : ℝ) : EReal)) := by
    rw [EReal.coe_lt_coe_iff, not_lt]
    exact zpow_le_zpow_right₀ (by norm_num) (by norm_num)
  have hv : stripClosestDouble [⟨0, 0⟩, ⟨0, (2 : ℝ) ^ (-600 : ℤ)⟩] 2
      (((2 : ℝ) ^ (-601 : ℤ) : ℝ) : EReal) = (((2 : ℝ) ^ (-601 : ℤ) : ℝ) : EReal) := by
    simp only [stripClosestDouble, List.take, stripOuterDouble, stripInnerDouble, hgap,
      if_neg hnot]
  refine ⟨?_, hv, distDouble_underflow_y, ?_⟩
  · rw [List.pairwise_pair]
    show (0 : ℝ) ≤ (2 : ℝ) ^ (-600 : ℤ)
    positivity
  · rw [hv, distDouble_underflow_y, not_le, ← EReal.coe_zero, EReal.coe_lt_coe_iff]
    positivity

/-- Claim C10, as amended: in double arithmetic `dist p q` is not negative (it may be
`+∞`), is symmetric, and is 0 for two points with the same coordinates; it is 0
exactly when the squares of both computed coordinate differences are at most
`2^-1075`, that is, round to 0. -/
theorem distDouble_nonneg_symm_zero (p q : Point) :
    0 ≤ distDouble p q ∧
    distDouble p q = distDouble q p ∧
    distDouble p p = 0 ∧
    (distDouble p q = 0 ↔
      subDouble p.x q.x * subDouble p.x q.x ≤ (((2 : ℝ) ^ (-1075 : ℤ) : ℝ) : EReal) ∧
      subDouble p.y q.y * subDouble p.y q.y ≤ (((2 : ℝ) ^ (-1075 : ℤ) : ℝ) : EReal)) := by
  refine ⟨distDouble_nonneg p q, distDouble_comm p q, distDouble_self_coords p p rfl rfl, ?_⟩
  rw [distDouble_eq_zero_iff, roundE_eq_zero_iff (ereal_mul_self_nonneg _),
    roundE_eq_zero_iff (ereal_mul_self_nonneg _)]

/-- Claim C10 as stated fails: the points `(0, 0)` and `(2^-600, 0)` differ, and
their computed distance is 0, because the square of `2^-600` underflows. -/
theorem distDouble_zero_for_distinct_points :
    distDouble ⟨0, 0⟩ ⟨(2 : ℝ) ^ (-600 : ℤ), 0⟩ = 0 ∧
    (⟨0, 0⟩ : Point).x ≠ (⟨(2 : ℝ) ^ (-600 : ℤ), 0⟩ : Point).x := by
  refine ⟨distDouble_underflow, ?_⟩
  show (0 : ℝ) ≠ (2 : ℝ) ^ (-600 : ℤ)
  exact ne_of_lt (by positivity)


/-! ## Equally spaced collinear points in double arithmetic -/

theorem closestUtilDouble_base (pointsX pointsY : List Point) (n : ℕ) (h : n ≤ 3) :
    closestUtilDouble pointsX pointsY n = some (closestPairBruteForceDouble pointsX n) := by
  rw [closestUtilDouble, dif_pos h]

theorem closestUtilDouble_rec (pointsX pointsY : List Point) (n : ℕ) (h : 3 < n) :
    closestUtilDouble pointsX pointsY n =
      if n - n / 2 < (partitionY (pointsX.getD (n / 2) default) (n / 2)
          (pointsY.take n) ([], [])).2.length then none
      else
        match closestUtilDouble pointsX (partitionY (pointsX.getD (n / 2) default) (n / 2)
              (pointsY.take n) ([], [])).1 (n / 2),
            closestUtilDouble (pointsX.drop (n / 2))
              (partitionY (pointsX.getD (n / 2) default)
              (n / 2) (pointsY.take n) ([], [])).2 (n - n / 2) with
        | some dl, some dr =>
          some (if (if dl < dr then dl else dr)
                < stripClosestDouble (buildStripDouble (pointsX.getD (n / 2) default)
                    (if dl < dr then dl else dr) (pointsY.take n))
                  (buildStripDouble (pointsX.getD (n / 2) default)
                    (if dl < dr then dl else dr) (pointsY.take n)).length
                  (if dl < dr then dl else dr)
            then (if dl < dr then dl else dr)
            else stripClosestDouble (buildStripDouble (pointsX.getD (n / 2) default)
                    (if dl < dr then dl else dr) (pointsY.take n))
                  (buildStripDouble (pointsX.getD (n / 2) default)
                    (if dl < dr then dl else dr) (pointsY.take n)).length
                  (if dl < dr then dl else dr))
        | _, _ => none := by
  rw [closestUtilDouble, dif_neg (by omega)]

/-- A running minimum over a list in which neighbours are at computed distance `δ`
and no pair is closer: the least of the initial value and `δ`. -/
theorem minOverDouble_of_chain {l : List Point} {m r δ : EReal}
    (h : MinOverDouble distDouble l m r)
    (hpw : l.Pairwise (fun a b => δ ≤ distDouble a b))
    (hch : l.Chain' (fun a b => distDouble a b = δ)) (hlen : 2 ≤ l.length) :
    r = min m δ := by
  obtain ⟨h1, h2, h3⟩ := h
  match l, hlen, h2, hch, hpw, h3 with
  | a :: b :: t, _, h2, hch, hpw, h3 =>
    rw [List.chain'_cons] at hch
    rw [List.pairwise_cons] at h2
    have hrδ : r ≤ δ := by
      rw [← hch.1]
      exact h2.1 b (List.mem_cons_self _ _)
    refine le_antisymm (le_min h1 hrδ) ?_
    rcases h3 with e | ⟨c, d, hcd, e⟩
    · rw [e]
      exact min_le_left _ _
    · rw [e]
      exact le_trans (min_le_right _ _) (List.pairwise_iff_forall_sublist.mp hpw hcd)

/-- On an X view with strictly increasing x in which neighbours are at computed
distance `δ` and no pair is closer, `closestUtil` returns the least of `DBL_MAX` and
`δ`. -/
theorem closestUtilDouble_chain (δ : EReal) (n : ℕ) :
    ∀ pointsX pointsY : List Point, 2 ≤ n → n ≤ pointsX.length →
      (pointsX.take n).Pairwise (fun a b => a.x < b.x) →
      pointsY.Perm (pointsX.take n) →
      pointsY.Pairwise (fun a b => a.y ≤ b.y) →
      (pointsX.take n).Pairwise (fun a b => δ ≤ distDouble a b) →
      (pointsX.take n).Chain' (fun a b => distDouble a b = δ) →
      closestUtilDouble pointsX pointsY n = some (min ((DBL_MAX : ℝ) : EReal) δ) := by
  induction n using Nat.strong_induction_on with
  | _ n ih =>
    intro pointsX pointsY hn2 hlen hX hperm hYs hpw hch
    by_cases hn : n ≤ 3
    · rw [closestUtilDouble_base _ _ _ hn]
      unfold closestPairBruteForceDouble
      refine congrArg some (minOverDouble_of_chain (bruteOuterDouble_spec _ _) hpw hch ?_)
      rw [List.length_take, Nat.min_eq_left hlen]
      exact hn2
    · have hn3 : 3 < n := by omega
      have hmid : n / 2 < n := by omega
      have hlt : n / 2 < pointsX.length := by omega
      have hmp : pointsX.getD (n / 2) default = pointsX[n / 2] :=
        List.getD_eq_getElem _ _ hlt
      have hR : (pointsX.drop (n / 2)).take (n - n / 2)
          = pointsX[n / 2] :: (pointsX.drop (n / 2 + 1)).take (n - n / 2 - 1) := by
        rw [List.drop_eq_getElem_cons hlt, List.take_cons (by omega)]
      have hsplit : pointsX.take n = pointsX.take (n / 2)
          ++ pointsX[n / 2] :: (pointsX.drop (n / 2 + 1)).take (n - n / 2 - 1) := by
        rw [← hR, ← List.take_add]
        congr 1
        omega
      have hYlen : pointsY.length = n := by
        rw [hperm.length_eq, List.length_take, Nat.min_eq_left hlen]
      have hLlen : (pointsX.take (n / 2)).length = n / 2 := by
        rw [List.length_take]
        omega
      have hsymm : ∀ {x y : Point}, δ ≤ distDouble x y → δ ≤ distDouble y x := by
        intro x y hxy
        rw [distDouble_comm]; exact hxy
      have hYpw : pointsY.Pairwise (fun a b => δ ≤ distDouble a b) :=
        (List.Perm.pairwise_iff hsymm hperm).mpr hpw
      rw [hsplit] at hX hperm hpw hch
      obtain ⟨yl, yr, hparts, hyl, hyr, hsl, hsr⟩ :=
        partitionY_matches_split _ _ pointsY _ hX hperm
      rw [hLlen] at hparts
      have hXa := List.pairwise_append.mp hX
      have hpwa := List.pairwise_append.mp hpw
      have hL := ih (n / 2) hmid pointsX yl (by omega) (by omega) hXa.1 hyl
        (hYs.sublist hsl) hpwa.1 hch.left_of_append
      have hRr := ih (n - n / 2) (by omega) (pointsX.drop (n / 2)) yr (by omega)
        (by rw [List.length_drop]; omega) (by rw [hR]; exact hXa.2.1)
        (by rw [hR]; exact hyr) (hYs.sublist hsr) (by rw [hR]; exact hpwa.2.1)
        (by rw [hR]; exact hch.right_of_append)
      have hyrlen : yr.length = n - n / 2 := by
        rw [hyr.length_eq, ← hR, List.length_take, List.length_drop]
        omega
      rw [closestUtilDouble_rec _ _ _ hn3, hmp, List.take_of_length_le (le_of_eq hYlen), hparts]
      simp only [hyrlen, lt_irrefl, if_false, hL, hRr]
      have hsub : List.Sublist (buildStripDouble pointsX[n / 2]
          (min ((DBL_MAX : ℝ) : EReal) δ) pointsY) pointsY := List.filter_sublist _
      have hs : MinOverDouble stripBound
          (buildStripDouble pointsX[n / 2] (min ((DBL_MAX : ℝ) : EReal) δ) pointsY)
          (min ((DBL_MAX : ℝ) : EReal) δ)
          (stripClosestDouble
            (buildStripDouble pointsX[n / 2] (min ((DBL_MAX : ℝ) : EReal) δ) pointsY)
            (buildStripDouble pointsX[n / 2] (min ((DBL_MAX : ℝ) : EReal) δ) pointsY).length
            (min ((DBL_MAX : ℝ) : EReal) δ)) := by
        unfold stripClosestDouble
        rw [List.take_length]
        exact stripOuterDouble_spec _ _ (hYs.sublist hsub)
      have hval : stripClosestDouble
            (buildStripDouble pointsX[n / 2] (min ((DBL_MAX : ℝ) : EReal) δ) pointsY)
            (buildStripDouble pointsX[n / 2] (min ((DBL_MAX : ℝ) : EReal) δ) pointsY).length
            (min ((DBL_MAX : ℝ) : EReal) δ) = min ((DBL_MAX : ℝ) : EReal) δ := by
        refine le_antisymm hs.1 ?_
        rcases hs.2.2 with e | ⟨a, b, hab, e⟩
        · rw [e]
        · rw [e]
          exact le_trans (min_le_right _ _)
            (List.pairwise_iff_forall_sublist.mp hYpw (hab.trans hsub))
      rw [hval, if_neg (lt_irrefl _)]

/-- The equally spaced points `(x0 + i*dx, y0 + i*dy)`, `i < n`: neighbours are at the
computed distance of `(0,0)` and `(dx,dy)`, and no pair is closer. -/
theorem collinear_distDouble (n : ℕ) (x0 y0 dx dy : ℝ) :
    ((List.range n).map (fun i : ℕ => (⟨x0 + i * dx, y0 + i * dy⟩ : Point))).Pairwise
      (fun a b => distDouble ⟨0, 0⟩ ⟨dx, dy⟩ ≤ distDouble a b) ∧
    ((List.range n).map (fun i : ℕ => (⟨x0 + i * dx, y0 + i * dy⟩ : Point))).Chain'
      (fun a b => distDouble a b = distDouble ⟨0, 0⟩ ⟨dx, dy⟩) := by
  constructor
  · rw [List.pairwise_map]
    refine (List.pairwise_lt_range n).imp ?_
    intro i j hij
    have h1 : (1 : ℝ) ≤ (j : ℝ) - i := by
      have : ((i + 1 : ℕ) : ℝ) ≤ (j : ℝ) := by exact_mod_cast hij
      push_cast at this
      linarith
    have habs : ∀ t : ℝ, |(0 : ℝ) - t| ≤ |x0 + i * t - (x0 + j * t)| := by
      intro t
      have e1 : x0 + i * t - (x0 + j * t) = -(((j : ℝ) - i) * t) := by ring
      rw [e1, abs_neg, zero_sub, abs_neg, abs_mul, abs_of_nonneg (by linarith : (0 : ℝ) ≤ (j : ℝ) - i)]
      have := abs_nonneg t
      nlinarith
    apply distDouble_mono
    · show |(0 : ℝ) - dx| ≤ |x0 + i * dx - (x0 + j * dx)|
      exact habs dx
    · show |(0 : ℝ) - dy| ≤ |y0 + i * dy - (y0 + j * dy)|
      have e1 : y0 + i * dy - (y0 + j * dy) = -(((j : ℝ) - i) * dy) := by ring
      rw [e1, abs_neg, zero_sub, abs_neg, abs_mul, abs_of_nonneg (by linarith : (0 : ℝ) ≤ (j : ℝ) - i)]
      have := abs_nonneg dy
      nlinarith
  · rw [List.chain'_map]
    cases n with
    | zero => simp
    | succ k =>
      rw [List.chain'_range_succ]
      intro m _
      apply distDouble_congr
      · show x0 + m * dx - (x0 + (m.succ : ℕ) * dx) = 0 - dx
        push_cast
        ring
      · show y0 + m * dy - (y0 + (m.succ : ℕ) * dy) = 0 - dy
        push_cast
        ring

/-- Claim C7, as amended: in double arithmetic, for `n ≥ 2`, a base point and a step
`(dx, dy)` with `dx ≠ 0`, on an input that holds, in any order, the points
`(x0 + i*dx, y0 + i*dy)`, `i < n`, `closest` (with any conforming `qsort`) returns the
least of `DBL_MAX` and `dist((0,0), (dx,dy))`, the spacing as `dist` computes it,
which is also the computed distance of any two neighbouring points.  Vertical lines
(`dx = 0`) are left out. -/
theorem closestDouble_collinear_equally_spaced
    (qsort : (Point → Point → ℤ) → List Point → List Point) (hq : QsortSpec qsort)
    (n : ℕ) (hn : 2 ≤ n) (x0 y0 dx dy : ℝ) (hdx : dx ≠ 0) (points : List Point)
    (hp : points.Perm
      ((List.range n).map (fun i : ℕ => (⟨x0 + i * dx, y0 + i * dy⟩ : Point)))) :
    closestDouble qsort points n
      = some (min ((DBL_MAX : ℝ) : EReal) (distDouble ⟨0, 0⟩ ⟨dx, dy⟩)) ∧
    (∀ i : ℕ, distDouble ⟨x0 + i * dx, y0 + i * dy⟩ ⟨x0 + (i + 1) * dx, y0 + (i + 1) * dy⟩
      = distDouble ⟨0, 0⟩ ⟨dx, dy⟩) := by
  constructor
  · obtain ⟨hMpw, hMch⟩ := collinear_distDouble n x0 y0 dx dy
    have hlen : points.length = n := by
      rw [hp.length_eq, List.length_map, List.length_range]
    have hsymm : ∀ {x y : Point}, distDouble ⟨0, 0⟩ ⟨dx, dy⟩ ≤ distDouble x y →
        distDouble ⟨0, 0⟩ ⟨dx, dy⟩ ≤ distDouble y x := by
      intro x y hxy
      rw [distDouble_comm y x]; exact hxy
    have hMne : ((List.range n).map
        (fun i : ℕ => (⟨x0 + i * dx, y0 + i * dy⟩ : Point))).Pairwise
        (fun a b => a.x ≠ b.x) := by
      rw [List.pairwise_map]
      refine (List.pairwise_lt_range n).imp ?_
      intro i j hij heq
      have hij2 : (i : ℝ) < j := by exact_mod_cast hij
      have : ((i : ℝ) - j) * dx = 0 := by
        simp only at heq
        linarith
      rcases mul_eq_zero.mp this with h | h
      · linarith
      · exact hdx h
    obtain ⟨hXp, hXs, hYp, hYs⟩ := hq points
    have hXM : (qsort compareX points).Perm ((List.range n).map
        (fun i : ℕ => (⟨x0 + i * dx, y0 + i * dy⟩ : Point))) := hXp.trans hp
    have hXlen : (qsort compareX points).length = n := by rw [hXp.length_eq, hlen]
    have hne : (qsort compareX points).Pairwise (fun a b => a.x ≠ b.x) :=
      (List.Perm.pairwise_iff (fun h => Ne.symm h) hXM).mpr hMne
    have hstrict : (qsort compareX points).Pairwise (fun a b => a.x < b.x) := by
      refine (hXs.and hne).imp ?_
      intro a b h
      exact lt_of_le_of_ne ((compareX_le_zero_iff a b).mp h.1) h.2
    have hXpw : (qsort compareX points).Pairwise
        (fun a b => distDouble ⟨0, 0⟩ ⟨dx, dy⟩ ≤ distDouble a b) :=
      (List.Perm.pairwise_iff hsymm hXM).mpr hMpw
    have hinj : ∀ l : List Point, l.Pairwise (fun a b => a.x ≠ b.x) →
        ∀ a ∈ l, ∀ b ∈ l, a.x = b.x → a = b := by
      intro l hl a ha b hb hab
      by_contra hneq
      exact hl.forall (fun _ _ h => Ne.symm h) ha hb hneq hab
    have hXch : (qsort compareX points).Chain'
        (fun a b => distDouble a b = distDouble ⟨0, 0⟩ ⟨dx, dy⟩) := by
      rcases lt_or_gt_of_ne hdx with hneg | hpos
      · have hrev : (((List.range n).map
            (fun i : ℕ => (⟨x0 + i * dx, y0 + i * dy⟩ : Point))).reverse).Pairwise
            (fun a b => a.x ≤ b.x) := by
          rw [List.pairwise_reverse, List.pairwise_map]
          refine (List.pairwise_lt_range n).imp ?_
          intro i j hij
          have hij2 : (i : ℝ) < j := by exact_mod_cast hij
          show x0 + j * dx ≤ x0 + i * dx
          nlinarith
        have heq := sorted_perm_unique (fun a => a.x) hrev
          (hinj _ ((List.pairwise_reverse).mpr (hMne.imp (fun h => Ne.symm h))))
          (hXM.trans (List.reverse_perm _).symm)
          (hXs.imp (fun h => (compareX_le_zero_iff _ _).mp h))
        rw [heq, List.chain'_reverse]
        refine hMch.imp ?_
        intro a b h
        show distDouble b a = distDouble ⟨0, 0⟩ ⟨dx, dy⟩
        rw [distDouble_comm]
        exact h
      · have hasc : ((List.range n).map
            (fun i : ℕ => (⟨x0 + i * dx, y0 + i * dy⟩ : Point))).Pairwise
            (fun a b => a.x ≤ b.x) := by
          rw [List.pairwise_map]
          refine (List.pairwise_lt_range n).imp ?_
          intro i j hij
          have hij2 : (i : ℝ) < j := by exact_mod_cast hij
          show x0 + i * dx ≤ x0 + j * dx
          nlinarith
        have heq := sorted_perm_unique (fun a => a.x) hasc (hinj _ hMne) hXM
          (hXs.imp (fun h => (compareX_le_zero_iff _ _).mp h))
        rw [heq]
        exact hMch
    have htake : (qsort compareX points).take n = qsort compareX points := by
      rw [← hXlen, List.take_length]
    unfold closestDouble
    rw [← hlen, List.take_length, hlen]
    exact closestUtilDouble_chain _ n _ _ hn (le_of_eq hXlen.symm)
      (by rw [htake]; exact hstrict) (by rw [htake]; exact hYp.trans hXp.symm)
      (hYs.imp (fun h => (compareY_le_zero_iff _ _).mp h))
      (by rw [htake]; exact hXpw) (by rw [htake]; exact hXch)
  · intro i
    apply distDouble_congr
    · show x0 + i * dx - (x0 + (i + 1) * dx) = 0 - dx
      ring
    · show y0 + i * dy - (y0 + (i + 1) * dy) = 0 - dy
      ring

/-- The amended claim C7 for the four points `(3i, 4i)`, `i < 4`, given out of order. -/
theorem closestDouble_collinear_equally_spaced_witness :
    closestDouble stableQsort [⟨3, 4⟩, ⟨0, 0⟩, ⟨9, 12⟩, ⟨6, 8⟩] 4
      = some (min ((DBL_MAX : ℝ) : EReal) (distDouble ⟨0, 0⟩ ⟨3, 4⟩)) ∧
    (∀ i : ℕ, distDouble ⟨0 + i * 3, 0 + i * 4⟩ ⟨0 + (i + 1) * 3, 0 + (i + 1) * 4⟩
      = distDouble ⟨0, 0⟩ ⟨3, 4⟩) := by
  have hmap : (List.range 4).map (fun i : ℕ => (⟨0 + i * 3, 0 + i * 4⟩ : Point))
      = [⟨0, 0⟩, ⟨3, 4⟩, ⟨6, 8⟩, ⟨9, 12⟩] := by
    norm_num [List.range_succ]
  refine closestDouble_collinear_equally_spaced stableQsort stableQsort_spec 4 (by decide)
    0 0 3 4 (by norm_num) _ ?_
  rw [hmap]
  exact (List.Perm.swap _ _ _).trans ((List.Perm.swap _ _ _).cons _ |>.cons _)

/-- Claim C7 as stated fails, in three ways.  The four points `(0, 3 - i)`, `i < 4`, lie
on a vertical line with spacing 1: the stable sort keeps their order in the X view,
the median is `(0,1)`, one point goes to `pointsYL` and three go to `pointsYR`, which
has room for two, and `closest` has no result.  The two points `(0, 0)` and
`(2^600, 0)` have spacing `2^600`; the square overflows and `closest` returns
`DBL_MAX`.  The two points `(0, 0)` and `(2^-600, 0)` have spacing `2^-600`; the
square underflows and `closest` returns 0. -/
theorem closestDouble_collinear_failures :
    closestDouble stableQsort [⟨0, 3⟩, ⟨0, 2⟩, ⟨0, 1⟩, ⟨0, 0⟩] 4 = none ∧
    partitionY ⟨0, 1⟩ 2 [⟨0, 0⟩, ⟨0, 1⟩, ⟨0, 2⟩, ⟨0, 3⟩] ([], [])
      = ([⟨0, 0⟩], [⟨0, 1⟩, ⟨0, 2⟩, ⟨0, 3⟩]) ∧
    closestDouble stableQsort [⟨0, 0⟩, ⟨(2 : ℝ) ^ (600 : ℤ), 0⟩] 2
      = some ((DBL_MAX : ℝ) : EReal) ∧
    ((DBL_MAX : ℝ) : EReal)
      ≠ ((Real.sqrt (((2 : ℝ) ^ (600 : ℤ)) ^ 2 + (0 : ℝ) ^ 2) : ℝ) : EReal) ∧
    closestDouble stableQsort [⟨0, 0⟩, ⟨(2 : ℝ) ^ (-600 : ℤ), 0⟩] 2 = some 0 ∧
    (0 : EReal) ≠ ((Real.sqrt (((2 : ℝ) ^ (-600 : ℤ)) ^ 2 + (0 : ℝ) ^ 2) : ℝ) : EReal) := by
  have hX : stableQsort compareX [⟨0, 3⟩, ⟨0, 2⟩, ⟨0, 1⟩, ⟨0, 0⟩]
      = [⟨0, 3⟩, ⟨0, 2⟩, ⟨0, 1⟩, ⟨0, 0⟩] := by
    norm_num [stableQsort, compareX_le_zero_iff, List.insertionSort, List.orderedInsert]
  have hY : stableQsort compareY [⟨0, 3⟩, ⟨0, 2⟩, ⟨0, 1⟩, ⟨0, 0⟩]
      = [⟨0, 0⟩, ⟨0, 1⟩, ⟨0, 2⟩, ⟨0, 3⟩] := by
    norm_num [stableQsort, compareY_le_zero_iff, List.insertionSort, List.orderedInsert]
  have hsq : ∀ k : ℤ, Real.sqrt (((2 : ℝ) ^ k) ^ 2 + (0 : ℝ) ^ 2) = (2 : ℝ) ^ k := by
    intro k
    rw [show ((2 : ℝ) ^ k) ^ 2 + (0 : ℝ) ^ 2 = ((2 : ℝ) ^ k) ^ 2 by ring]
    exact Real.sqrt_sq (by positivity)
  have hsort : ∀ k : ℤ, stableQsort compareX [⟨0, 0⟩, ⟨(2 : ℝ) ^ k, 0⟩]
      = [⟨0, 0⟩, ⟨(2 : ℝ) ^ k, 0⟩] := by
    intro k
    have hk : (0 : ℝ) ≤ (2 : ℝ) ^ k := by positivity
    simp [stableQsort, compareX_le_zero_iff, List.insertionSort, List.orderedInsert, hk]
  refine ⟨?_, ?_, ?_, ?_, ?_, ?_⟩
  · unfold closestDouble
    simp only [List.take, hX, hY]
    rw [closestUtilDouble_rec _ _ _ (by norm_num)]
    norm_num [partitionY, isLeft]
  · norm_num [partitionY, isLeft]
  · unfold closestDouble
    simp only [List.take, hsort]
    rw [closestUtilDouble_base _ _ _ (by norm_num), closestPairBruteForceDouble_overflow_value]
  · rw [hsq, Ne, EReal.coe_eq_coe_iff]
    intro h
    have h1 : (2 : ℝ) ^ (600 : ℤ) < DBL_MAX := by
      unfold DBL_MAX
      rw [show (600 : ℤ) = ((600 : ℕ) : ℤ) by norm_num, zpow_natCast]
      norm_num
    linarith
  · unfold closestDouble
    simp only [List.take, hsort]
    rw [closestUtilDouble_base _ _ _ (by norm_num), closestPairBruteForceDouble_underflow_value]
  · rw [hsq, ← EReal.coe_zero, Ne, EReal.coe_eq_coe_iff]
    exact ne_of_lt (by positivity)


end ClosestPair

end
